import Mathlib

/-! Fooyin: the engine handler and some helpers around it.

A shallow embedding of `EngineHandler` (`src/core/engine/enginehandler.cpp`):
the output registry, the output reconciliation algorithm `changeOutput`, the
handlers of engine events and the forwarding of controller commands, with the
properties proved about them. The later sections embed the context override of
`ActionManager`, `Utils::msToString` and `Utils::capitalise`, the value caches
of `InfoItem` and `TagEditorItem`, and the ordering used by
`LibraryTreeItem::sortChildren`.

Modelling choices:

* a `QString` is its sequence of UTF-16 code units (`List Nat`);
* `std::map<QString, OutputCreator>` is an association list kept in key
  order by `emplace`; the type of the factories (`OutputCreator`, declared in
  a header outside this development) is a parameter `κ`;
* a member function that mutates `Private` and emits signals becomes a
  function returning the new state together with the list of signals emitted,
  in emission order.
-/

namespace Fooyin

/-! ## Strings -/

/-- UTF-16 code unit of a `QString`. -/
abbrev QChar := Nat

/-- Qt string: the sequence of its UTF-16 code units. -/
abbrev QString := List QChar

/-- Code units of a string literal (`QStringLiteral("...")`), for literals
within the Basic Multilingual Plane. -/
def QStringLiteral (s : String) : QString := s.toList.map Char.toNat

/-- The separator of an output descriptor, `QStringLiteral("|")`. -/
def sep : QChar := 124

/-- First field and remaining fields of `s` cut at every occurrence of `c`. -/
def splitParts (c : QChar) : QString → QString × List QString
  | [] => ([], [])
  | x :: xs =>
    let r := splitParts c xs
    if x = c then ([], r.1 :: r.2) else (x :: r.1, r.2)

/-- `QString::split` for a one-character separator with the default
`Qt::KeepEmptyParts`: a string with `n` separators yields `n + 1` fields, and the
empty string yields the single empty field. -/
def split (c : QChar) (s : QString) : List QString :=
  (splitParts c s).1 :: (splitParts c s).2

/-- `operator<` on `QString`: lexicographic comparison of the code units. -/
def qLess : QString → QString → Bool
  | [], [] => false
  | [], _ :: _ => true
  | _ :: _, [] => false
  | a :: as, b :: bs => if a < b then true else if b < a then false else qLess as bs

/-! ## The output registry: `std::map<QString, OutputCreator>` -/

/-- The registry, as the list of its entries in iteration order. -/
abbrev OutputMap (κ : Type) := List (QString × κ)

/-- `std::map::contains`. -/
def contains {κ : Type} (m : OutputMap κ) (name : QString) : Bool :=
  m.any (fun e => e.1 == name)

/-- `std::map::emplace`: inserts at the position given by the key order, and
leaves the map as it is when the key is already present. -/
def emplace {κ : Type} : OutputMap κ → QString → κ → OutputMap κ
  | [], name, creator => [(name, creator)]
  | e :: rest, name, creator =>
    if qLess name e.1 then (name, creator) :: e :: rest
    else if qLess e.1 name then e :: emplace rest name creator
    else e :: rest

/-! ## State and signals -/

/-- Selected backend and device. -/
structure CurrentOutput where
  name : QString
  device : QString
deriving DecidableEq, Repr

/-- The fields of `EngineHandler::Private` that output selection reads and
writes. -/
structure Private (κ : Type) where
  outputs : OutputMap κ
  currentOutput : CurrentOutput

/-- Signals of `EngineHandler` emitted by output selection. -/
inductive Signal where
  | outputChanged (output : QString)
  | deviceChanged (device : QString)
deriving DecidableEq, Repr

/-- Builder passed to `addOutput`. -/
structure AudioOutputBuilder (κ : Type) where
  name : QString
  creator : κ

/-- State right after construction: empty registry, default-constructed
`CurrentOutput`. -/
def Private.init (κ : Type) : Private κ :=
  { outputs := [], currentOutput := { name := [], device := [] } }

/-! ## Operations -/

/-- Lines 143-171 of `changeOutput`: split the descriptor and reconcile it with
the current output. -/
def applyDescriptor {κ : Type} (p : Private κ) (output : QString) :
    Private κ × List Signal :=
  let newOutput := split sep output
  if newOutput.isEmpty || newOutput.length < 2 then (p, [])
  else
    let newName := newOutput.getD 0 []
    let device := newOutput.getD 1 []
    if p.outputs.isEmpty then (p, [])
    else if !contains p.outputs newName then (p, [])
    else if p.currentOutput.name != newName then
      ({ p with currentOutput := { name := newName, device := device } },
        [Signal.outputChanged newName, Signal.deviceChanged device])
    else if p.currentOutput.device != device then
      ({ p with currentOutput := { p.currentOutput with device := device } },
        [Signal.deviceChanged device])
    else (p, [])

/-- The member `EngineHandler::Private::changeOutput`. For an empty descriptor
the first block either returns or selects the first registered backend, emits
both signals and falls through into the descriptor code. -/
def changeOutput {κ : Type} (p : Private κ) (output : QString) :
    Private κ × List Signal :=
  if output.isEmpty then
    match p.outputs with
    | [] => (p, [])
    | first :: _ =>
      if !p.currentOutput.name.isEmpty then (p, [])
      else
        let p1 : Private κ :=
          { p with currentOutput :=
              { name := first.1, device := QStringLiteral "default" } }
        let r := applyDescriptor p1 output
        (r.1, Signal.outputChanged p1.currentOutput.name
                :: Signal.deviceChanged p1.currentOutput.device :: r.2)
  else applyDescriptor p output

/-- The member `EngineHandler::getAllOutputs`: the registered names in the
iteration order of the map. -/
def getAllOutputs {κ : Type} (p : Private κ) : List QString :=
  p.outputs.map (fun e => e.1)

/-- The member `EngineHandler::addOutput`. -/
def addOutput {κ : Type} (p : Private κ) (output : AudioOutputBuilder κ) : Private κ :=
  if contains p.outputs output.name then p
  else { p with outputs := emplace p.outputs output.name output.creator }

/-- The member `EngineHandler::setup`; `configured` is the value of the setting
`Settings::Core::AudioOutput` read by the call. -/
def setup {κ : Type} (p : Private κ) (configured : QString) : Private κ × List Signal :=
  changeOutput p configured

/-- Descriptor `name|device`. -/
def descriptor (name device : QString) : QString := name ++ sep :: device

/-- Number of `outputChanged` signals in a list of emissions. -/
def countOutputChanged (evs : List Signal) : Nat :=
  evs.countP (fun e => match e with
    | Signal.outputChanged _ => true
    | Signal.deviceChanged _ => false)

/-- Number of `deviceChanged` signals in a list of emissions. -/
def countDeviceChanged (evs : List Signal) : Nat :=
  evs.countP (fun e => match e with
    | Signal.outputChanged _ => false
    | Signal.deviceChanged _ => true)

/-- The part of `s` before its first separator (`s` itself when it has none):
what `split` returns at index 0. -/
def firstField (s : QString) : QString := (splitParts sep s).1

/-! ## Sequences of calls -/

/-- A call of the public surface that can change the registry or the current
output: `addOutput`, a change of the setting `AudioOutput` (which runs
`changeOutput` through the subscription made in the constructor), `setup`. -/
inductive Call (κ : Type) where
  | addOutput (output : AudioOutputBuilder κ)
  | changeOutput (output : QString)
  | setup (configured : QString)

/-- State after one call. -/
def applyCall {κ : Type} (p : Private κ) : Call κ → Private κ
  | Call.addOutput output => addOutput p output
  | Call.changeOutput output => (changeOutput p output).1
  | Call.setup configured => (setup p configured).1

/-- State reached from construction by a sequence of calls. -/
def run {κ : Type} (calls : List (Call κ)) : Private κ :=
  calls.foldl applyCall (Private.init κ)

/-- The current name is empty or a key of the registry. -/
def NameRegistered {κ : Type} (p : Private κ) : Prop :=
  p.currentOutput.name = [] ∨ contains p.outputs p.currentOutput.name = true

/-! ## Concrete registries used in the evaluated examples -/

/-- Registry holding one backend, named `a|b`; nothing selected. -/
def pipeNamed : Private Nat :=
  { outputs := [(QStringLiteral "a|b", 0)], currentOutput := { name := [], device := [] } }

/-- Registry holding one backend, registered under the empty name; nothing
selected. -/
def emptyNamed : Private Nat :=
  { outputs := [([], 0)], currentOutput := { name := [], device := [] } }

/-- Registry holding the backends `alsa` and `pipewire`; nothing selected. -/
def twoBackends : Private Nat :=
  { outputs := [(QStringLiteral "alsa", 0), (QStringLiteral "pipewire", 1)],
    currentOutput := { name := [], device := [] } }

/-- Registry holding the backends `b` and `b|x`; nothing selected. -/
def prefixNamed : Private Nat :=
  { outputs := [(QStringLiteral "b", 0), (QStringLiteral "b|x", 1)],
    currentOutput := { name := [], device := [] } }

/-- `std::map::at` on a key that the map contains (every call in the source is
guarded by `contains`, so the throwing case does not arise): the factory bound
to `name`. -/
def mapAt {κ : Type} : (m : OutputMap κ) → (name : QString) → contains m name = true → κ
  | [], _, h => absurd h (by simp [contains])
  | e :: rest, name, h =>
    if he : e.1 = name then e.2
    else mapAt rest name (by simpa [contains, he] using h)

/-- Registry state after construction followed by `addOutput` on each builder,
in list order. -/
def registerAll {κ : Type} (builders : List (AudioOutputBuilder κ)) : Private κ :=
  builders.foldl addOutput (Private.init κ)

/-- The member `EngineHandler::getOutputDevices`. The factory type `κ`, the
output instance type `ω` and the device type `δ` are declared outside this
development: `create` invokes a factory (`none` is the null pointer) and
`getAllDevices` is the instance's device listing. The state is returned next to
the result to show what the call leaves of it. -/
def getOutputDevices {κ ω δ : Type} (create : κ → Option ω) (getAllDevices : ω → List δ)
    (p : Private κ) (output : QString) : Private κ × List δ :=
  if h : contains p.outputs output = false then (p, [])
  else
    match create (mapAt p.outputs output (by simpa using h)) with
    | some out => (p, getAllDevices out)
    | none => (p, [])

/-! ## Engine events and controller commands -/

/-- Modelled from the spec: the enum `PlaybackState` (section 3), whose
declaration is in a header outside this development; the values are those of
the switch in `handleStateChange`. -/
inductive PlaybackState where
  | Playing
  | Paused
  | Stopped
  | Error
deriving DecidableEq, Repr

/-- Modelled from the spec: the enum `TrackStatus` (section 3), whose
declaration is in a header outside this development; the values are those of
the switch in `handleTrackStatus`. -/
inductive TrackStatus where
  | InvalidTrack
  | NoTrack
  | LoadingTrack
  | LoadedTrack
  | BufferedTrack
  | EndOfTrack
deriving DecidableEq, Repr

/-- Modelled from the spec: the enum `PlayState` (section 3), whose
declaration is in a header outside this development; the values are those of
the switch in `playStateChanged`. -/
inductive PlayState where
  | Playing
  | Paused
  | Stopped
deriving DecidableEq, Repr

/-- Operations of `PlayerController` invoked by the event handlers. -/
inductive ControllerCall where
  | stop
  | pause
  | next
deriving DecidableEq, Repr

/-- What `handleTrackStatus` does, in program order: calls on the controller and
the emission of the signal `trackStatusChanged`. -/
inductive TrackEffect where
  | controller (call : ControllerCall)
  | trackStatusChanged (status : TrackStatus)
deriving DecidableEq, Repr

/-- Commands queued for the engine on its thread. -/
inductive EngineCommand (κ : Type) where
  | play
  | pause
  | stop
  | setAudioOutput (creator : κ)
  | setOutputDevice (device : QString)
deriving DecidableEq, Repr

/-- The member `EngineHandler::Private::handleStateChange`: the controller calls
made, in order. -/
def handleStateChange : PlaybackState → List ControllerCall
  | PlaybackState.Error => [ControllerCall.stop]
  | PlaybackState.Stopped => [ControllerCall.stop]
  | PlaybackState.Paused => [ControllerCall.pause]
  | PlaybackState.Playing => []

/-- The switch of `handleTrackStatus` (lines 95-107): the controller calls made. -/
def trackStatusCalls : TrackStatus → List ControllerCall
  | TrackStatus.EndOfTrack => [ControllerCall.next]
  | TrackStatus.NoTrack => [ControllerCall.stop]
  | TrackStatus.InvalidTrack => []
  | TrackStatus.LoadingTrack => []
  | TrackStatus.LoadedTrack => []
  | TrackStatus.BufferedTrack => []

/-- The member `EngineHandler::Private::handleTrackStatus`: the switch, then the
emission of `trackStatusChanged(status)`. -/
def handleTrackStatus (status : TrackStatus) : List TrackEffect :=
  (trackStatusCalls status).map TrackEffect.controller
    ++ [TrackEffect.trackStatusChanged status]

/-- The controller calls among the effects of a handler, in order. -/
def controllerCalls (effects : List TrackEffect) : List ControllerCall :=
  effects.filterMap (fun e => match e with
    | TrackEffect.controller call => some call
    | TrackEffect.trackStatusChanged _ => none)

/-- Effects of a sequence of `trackStatusChanged` events of the engine, each
delivered to `handleTrackStatus`. -/
def handleTrackStatuses (statuses : List TrackStatus) : List TrackEffect :=
  statuses.flatMap handleTrackStatus

/-- The member `EngineHandler::Private::playStateChanged`: the engine command
run by the functor that the call queues on the engine. -/
def playStateChanged {κ : Type} : PlayState → List (EngineCommand κ)
  | PlayState.Playing => [EngineCommand.play]
  | PlayState.Paused => [EngineCommand.pause]
  | PlayState.Stopped => [EngineCommand.stop]

/-- The slot connected to `outputChanged` in the constructor (lines 187-192). -/
def outputChangedSlot {κ : Type} (p : Private κ) (output : QString) :
    List (EngineCommand κ) :=
  if h : contains p.outputs output = true then
    [EngineCommand.setAudioOutput (mapAt p.outputs output h)]
  else []

/-- Engine commands caused by one emitted signal: `outputChanged` runs the slot
above, `deviceChanged` is connected to `AudioEngine::setOutputDevice` (line 193). -/
def signalCommands {κ : Type} (p : Private κ) : Signal → List (EngineCommand κ)
  | Signal.outputChanged output => outputChangedSlot p output
  | Signal.deviceChanged device => [EngineCommand.setOutputDevice device]

/-- Engine commands queued by one call of `changeOutput`: the slots run at each
emission; the registry they read is the one of the call, which `changeOutput`
does not modify. -/
def changeOutputCommands {κ : Type} (p : Private κ) (output : QString) :
    List (EngineCommand κ) :=
  (changeOutput p output).2.flatMap (signalCommands (changeOutput p output).1)

/-! ## The reconciliation algorithm as the specification words it -/

/-- The algorithm of section 4.3 of the specification, step by step: an empty
input is handled by step 1 alone, any other input by steps 2 to 7. -/
def reconcileSpec {κ : Type} (p : Private κ) (input : QString) : Private κ × List Signal :=
  match input with
  | [] =>
    match p.outputs.head?, p.currentOutput.name with
    | none, _ => (p, [])
    | some _, _ :: _ => (p, [])
    | some first, [] =>
      ({ p with currentOutput := { name := first.1, device := QStringLiteral "default" } },
        [Signal.outputChanged first.1, Signal.deviceChanged (QStringLiteral "default")])
  | _ :: _ =>
    match split sep input with
    | name :: device :: _ =>
      if p.outputs.length = 0 then (p, [])
      else if contains p.outputs name = false then (p, [])
      else if name ≠ p.currentOutput.name then
        ({ p with currentOutput := { name := name, device := device } },
          [Signal.outputChanged name, Signal.deviceChanged device])
      else if device ≠ p.currentOutput.device then
        ({ p with currentOutput := { name := p.currentOutput.name, device := device } },
          [Signal.deviceChanged device])
      else (p, [])
    | _ => (p, [])

/-- State reached from construction by registering a backend named `a|b` and
then applying the empty setting, which selects it with the device `default`. -/
def pipeNamedSelected : Private Nat :=
  run [Call.addOutput { name := QStringLiteral "a|b", creator := 0 },
       Call.changeOutput []]

/-- State reached from construction by registering `alsa` and `pipewire` and
selecting `alsa|hw:0`. -/
def alsaSelected : Private Nat :=
  run [Call.addOutput { name := QStringLiteral "pipewire", creator := 1 },
       Call.addOutput { name := QStringLiteral "alsa", creator := 0 },
       Call.changeOutput (descriptor (QStringLiteral "alsa") (QStringLiteral "hw:0"))]

/-- The statuses carried by the `trackStatusChanged` emissions among the effects
of a handler, in order. -/
def emittedStatuses (effects : List TrackEffect) : List TrackStatus :=
  effects.filterMap (fun e => match e with
    | TrackEffect.controller _ => none
    | TrackEffect.trackStatusChanged status => some status)

/-! ## ActionManager: the context override (`src/utils/actions/actionmanager.cpp`) -/

/-- An `Id` of the action system. -/
abbrev ContextId := Nat

/-- The class `Context`: the list `m_ids` (`src/utils/actions/widgetcontext.cpp`). -/
abbrev Context := List ContextId

/-- The fields of `ActionManager::Private` that context handling reads and
writes. Pointers to `WidgetContext` and to `QWidget` are numbers, a null pointer
is `none`; `commandContexts` holds, for each command of `idCmdMap`, the context
last given to it by `setCurrentContext`. -/
structure ActionManagerPrivate where
  currentContext : Context
  contextOverride : Bool
  widgetOverride : Option Nat
  commandContexts : List (ContextId × Context)
  activeContext : List Nat
  contextWidgets : List (Nat × Nat)
deriving DecidableEq, Repr

/-- What the code reads from the `WidgetContext` objects it points to, and the
constant `Constants::Context::Global`, declared outside this development. -/
structure WidgetContexts where
  context : Nat → Context
  isEnabled : Nat → Bool
  global : ContextId

/-- What one run of `updateFocusWidget` reads from the application: whether its
argument is a `QMenuBar` or a `QMenu`, the widget `QApplication::focusWidget()`
followed by its chain of parents (empty when no widget has the focus), and
whether `QApplication::focusWidget() == mainWindow->focusWidget()`. -/
structure FocusState where
  isMenu : Bool
  focusChain : List Nat
  isMainWindowFocus : Bool

/-- Signals of `ActionManager` emitted by context handling. -/
inductive ActionSignal where
  | contextChanged (context : Context)
deriving DecidableEq, Repr

/-- The member `ActionManager::Private::setContext`. -/
def setContext (s : ActionManagerPrivate) (updatedContext : Context) : ActionManagerPrivate :=
  { s with
    currentContext := updatedContext
    commandContexts := s.commandContexts.map (fun e => (e.1, updatedContext)) }

/-- The member `ActionManager::Private::updateContextObject`. -/
def updateContextObject (env : WidgetContexts) (s : ActionManagerPrivate)
    (context : List Nat) : ActionManagerPrivate × List ActionSignal :=
  let s1 := { s with activeContext := context }
  let uniqueContexts := s1.activeContext.flatMap env.context ++ [env.global]
  (setContext s1 uniqueContexts, [ActionSignal.contextChanged uniqueContexts])

/-- The member `ActionManager::contextObject`: the context registered for a
widget, null when there is none. -/
def contextObject (s : ActionManagerPrivate) (widget : Nat) : Option Nat :=
  (s.contextWidgets.find? (fun e => e.1 == widget)).map (fun e => e.2)

/-- The member `ActionManager::Private::updateFocusWidget`. -/
def updateFocusWidget (env : WidgetContexts) (focus : FocusState)
    (s : ActionManagerPrivate) : ActionManagerPrivate × List ActionSignal :=
  if focus.isMenu then (s, [])
  else if s.contextOverride then (s, [])
  else
    let newContext := focus.focusChain.filterMap (fun widget =>
      match contextObject s widget with
      | some widgetContext => if env.isEnabled widgetContext then some widgetContext else none
      | none => none)
    if !newContext.isEmpty || focus.isMainWindowFocus then updateContextObject env s newContext
    else (s, [])

/-- The member `ActionManager::overrideContext`; `focus` is what the nested
`updateFocusWidget(QApplication::focusWidget())` reads. -/
def overrideContext (env : WidgetContexts) (focus : FocusState) (s : ActionManagerPrivate)
    (context : Option Nat) (override : Bool) : ActionManagerPrivate × List ActionSignal :=
  match context with
  | none => (s, [])
  | some c =>
    if override && s.contextOverride then (s, [])
    else if override then
      updateContextObject env { s with contextOverride := true, widgetOverride := some c } [c]
    else if some c = s.widgetOverride then
      updateFocusWidget env focus
        { s with
          contextOverride := false
          widgetOverride := none
          activeContext := []
          currentContext := [] }
    else (s, [])

/-- Contexts used in the evaluated example: context 1 holds the id 10, context 2
the id 20, both enabled; the global id is 0. -/
def exampleContexts : WidgetContexts :=
  { context := fun c => [10 * c], isEnabled := fun _ => true, global := 0 }

/-- Focus on widget 7, child of widget 8, not a menu. -/
def exampleFocus : FocusState :=
  { isMenu := false, focusChain := [7, 8], isMainWindowFocus := true }

/-- State after `overrideContext(1, true)` on a manager that knows the
contexts 1 (widget 7) and 2 (widget 8). -/
def overriddenByOne : ActionManagerPrivate :=
  (overrideContext exampleContexts exampleFocus
    { currentContext := [], contextOverride := false, widgetOverride := none,
      commandContexts := [(5, [])], activeContext := [], contextWidgets := [(7, 1), (8, 2)] }
    (some 1) true).1

/-! ## Utils: `msToString` and `capitalise` (`src/utils/utils.cpp`) -/

/-- `QString::number(n)`: the decimal digits of `n`. -/
def number (n : Nat) : QString := (Nat.toDigits 10 n).map Char.toNat

/-- The text that `QString::arg(a, fieldWidth, 10, fillChar)` puts in place of
`%1`: the decimal digits of `a`, filled on the left up to `fieldWidth`. -/
def argPadded (a fieldWidth : Nat) (fillChar : QChar) : QString :=
  List.replicate (fieldWidth - (number a).length) fillChar ++ number a

/-- The function `Utils::msToString`; `ms` is a `uint64_t`, and no operation on
it can exceed its range. -/
def msToString (ms : Nat) : QString :=
  let msPerSecond := 1000
  let msPerMinute := msPerSecond * 60
  let msPerHour := msPerMinute * 60
  let msPerDay := msPerHour * 24
  let msPerWeek := msPerDay * 7
  let weeks := ms / msPerWeek
  let days := (ms % msPerWeek) / msPerDay
  let hours := (ms % msPerDay) / msPerHour
  let minutes := (ms % msPerHour) / msPerMinute
  let seconds := (ms % msPerMinute) / msPerSecond
  let t0 : QString := []
  let t1 := if weeks > 0 then t0 ++ (number weeks ++ QStringLiteral "wk ") else t0
  let t2 := if days > 0 then t1 ++ (number days ++ QStringLiteral "d ") else t1
  let t3 := if hours > 0 then t2 ++ (argPadded hours 2 48 ++ QStringLiteral ":") else t2
  let t4 :=
    if minutes > 0 || hours > 0 then t3 ++ (argPadded minutes 2 48 ++ QStringLiteral ":")
    else t3
  t4 ++ argPadded seconds 2 48

/-- Two-digit zero-padded decimal text of a number below 100: the digit of the
tens, then the digit of the units. -/
def twoDigits (n : Nat) : QString := [48 + n / 10, 48 + n % 10]

/-- `QStringList::join(separator)`. -/
def join (separator : QString) : List QString → QString
  | [] => []
  | [part] => part
  | part :: next :: rest => part ++ separator ++ join separator (next :: rest)

/-- `QString::split(c, Qt::SkipEmptyParts)`: the fields that are not empty. -/
def splitSkipEmpty (c : QChar) (s : QString) : List QString :=
  (split c s).filter (fun part => !part.isEmpty)

/-- The loop of `capitalise`: `part.replace(0, 1, part[0].toUpper())` on every
part. The access `part[0]` is out of range on an empty part, which gives `none`.
`toUpper` is `QChar::toUpper`, a function of the Qt library. -/
def capitaliseParts (toUpper : QChar → QChar) : List QString → Option (List QString)
  | [] => some []
  | part :: rest =>
    match part.head? with
    | none => none
    | some first =>
      match capitaliseParts toUpper rest with
      | none => none
      | some done => some ((toUpper first :: part.drop 1) :: done)

/-- The function `Utils::capitalise`; `none` stands for an out-of-range access. -/
def capitalise (toUpper : QChar → QChar) (s : QString) : Option QString :=
  (capitaliseParts toUpper (splitSkipEmpty 32 s)).map (join [32])

/-- What `capitalise` does to one non-empty part. -/
def capitalisePart (toUpper : QChar → QChar) : QString → QString
  | [] => []
  | first :: rest => toUpper first :: rest

/-- The restriction of `QChar::toUpper` to the letters `a` to `z`, used in the
evaluated example. -/
def asciiToUpper (c : Nat) : Nat := if 97 ≤ c ∧ c ≤ 122 then c - 32 else c

/-! ## InfoItem (`src/gui/info/infomodel.cpp`) -/

/-- `QStringList::sort()`: ascending order of `operator<`. -/
def sortStrings (strings : List QString) : List QString :=
  strings.insertionSort (fun a b => qLess b a = false)

/-- The enum `InfoItem::ValueType`, with the values of the switch in
`InfoItem::value`. -/
inductive ValueType where
  | Concat
  | Average
  | Total
  | Max
deriving DecidableEq, Repr

/-- The value fields of `InfoItem`. `m_numValue` and the entries of
`m_numValues` are `uint64_t`; `m_value` and `m_numValue` are the caches that the
const member `value` writes. -/
structure InfoItem where
  m_valueType : ValueType
  m_values : List QString
  m_value : QString
  m_numValues : List Nat
  m_numValue : Nat
deriving DecidableEq, Repr

/-- The `QVariant` returned by `InfoItem::value`: a string, a number, or what the
format function `m_formatNum` makes of the number. -/
inductive InfoValue (φ : Type) where
  | text (s : QString)
  | number (n : Nat)
  | formatted (v : φ)
deriving DecidableEq, Repr

/-- Lines 77-80 of `InfoItem::value`: the number through `m_formatNum` when one
is set. -/
def InfoItem.render {φ : Type} (formatNum : Option (Nat → φ)) (n : Nat) : InfoValue φ :=
  match formatNum with
  | some f => InfoValue.formatted (f n)
  | none => InfoValue.number n

/-- `std::reduce` over `uint64_t` values: the sum modulo `2^64`. -/
def reduceUInt64 (values : List Nat) : Nat :=
  values.foldl (fun acc v => (acc + v) % 2 ^ 64) 0

/-- A newly constructed item of the given value type. -/
def InfoItem.fresh (valueType : ValueType) : InfoItem :=
  { m_valueType := valueType, m_values := [], m_value := [], m_numValues := [],
    m_numValue := 0 }

/-- The member `InfoItem::value`: the item with its caches, and the result. -/
def InfoItem.value {φ : Type} (formatNum : Option (Nat → φ)) (item : InfoItem) :
    InfoItem × InfoValue φ :=
  match item.m_valueType with
  | ValueType.Concat =>
    let item1 :=
      if item.m_value.isEmpty then
        { item with m_value := join (QStringLiteral "; ") item.m_values }
      else item
    (item1, InfoValue.text item1.m_value)
  | ValueType.Average =>
    let item1 :=
      if item.m_numValue == 0 && !item.m_numValues.isEmpty then
        { item with m_numValue := reduceUInt64 item.m_numValues / item.m_numValues.length }
      else item
    (item1, InfoItem.render formatNum item1.m_numValue)
  | ValueType.Total => (item, InfoItem.render formatNum item.m_numValue)
  | ValueType.Max => (item, InfoItem.render formatNum item.m_numValue)

/-- The overload `InfoItem::addTrackValue(const QString&)`. -/
def InfoItem.addTrackValueString (item : InfoItem) (value : QString) : InfoItem :=
  if item.m_values.length > 100 || item.m_values.contains value || value.isEmpty then item
  else { item with m_values := sortStrings (item.m_values ++ [value]) }

/-- The overload `InfoItem::addTrackValue(uint64_t)`. -/
def InfoItem.addTrackValue (item : InfoItem) (value : Nat) : InfoItem :=
  match item.m_valueType with
  | ValueType.Concat => item.addTrackValueString (number value)
  | ValueType.Average => { item with m_numValues := item.m_numValues ++ [value] }
  | ValueType.Total => { item with m_numValue := (item.m_numValue + value) % 2 ^ 64 }
  | ValueType.Max => { item with m_numValue := max item.m_numValue value }

/-- A call on an item: `addTrackValue(value)` or `value()`. -/
inductive InfoCall where
  | addTrackValue (value : Nat)
  | value
deriving DecidableEq, Repr

/-- The item after a sequence of calls, and the results of its `value()` calls
in call order. -/
def InfoItem.run {φ : Type} (formatNum : Option (Nat → φ)) :
    InfoItem → List InfoCall → InfoItem × List (InfoValue φ)
  | item, [] => (item, [])
  | item, InfoCall.addTrackValue v :: rest => InfoItem.run formatNum (item.addTrackValue v) rest
  | item, InfoCall.value :: rest =>
    let r := InfoItem.run formatNum (InfoItem.value formatNum item).1 rest
    (r.1, (InfoItem.value formatNum item).2 :: r.2)

/-- Every `addTrackValue` call of the sequence is made while the cached number
`m_numValue` is 0: no `value()` call has reported a non-zero number before it. -/
def addsOnZeroCache {φ : Type} (formatNum : Option (Nat → φ)) :
    InfoItem → List InfoCall → Bool
  | _, [] => true
  | item, InfoCall.addTrackValue v :: rest =>
    (item.m_numValue == 0) && addsOnZeroCache formatNum (item.addTrackValue v) rest
  | item, InfoCall.value :: rest =>
    addsOnZeroCache formatNum (InfoItem.value formatNum item).1 rest

/-- The values added by the `addTrackValue` calls of a sequence, in call order. -/
def addedValues (calls : List InfoCall) : List Nat :=
  calls.filterMap (fun c => match c with
    | InfoCall.addTrackValue v => some v
    | InfoCall.value => none)

/-! ## TagEditorItem (`src/plugins/tageditor/tageditoritem.cpp`) -/

/-- The function `withinCharLimit`, with `CharLimit = 2000`. -/
def withinCharLimit (strings : List QString) : Bool :=
  strings.foldl (fun sum str => sum + str.length) 0 ≤ 2000

/-- The value fields of `TagEditorItem`; `m_value` is the cache that the const
member `value` writes, `m_trackCount` is an `int` counted up by one per call. -/
structure TagEditorItem where
  m_values : List QString
  m_value : QString
  m_trackCount : Nat
deriving DecidableEq, Repr

/-- A newly constructed item. -/
def TagEditorItem.fresh : TagEditorItem :=
  { m_values := [], m_value := [], m_trackCount := 0 }

/-- The member `TagEditorItem::value`: the item with its cache, and the result. -/
def TagEditorItem.value (item : TagEditorItem) : TagEditorItem × QString :=
  let item1 :=
    if item.m_value.isEmpty then
      let nonEmptyValues := item.m_values.filter (fun v => v != QStringLiteral "")
      { item with m_value := join (QStringLiteral "; ") nonEmptyValues }
    else item
  (item1, item1.m_value)

/-- The member `TagEditorItem::trackCount`. -/
def TagEditorItem.trackCount (item : TagEditorItem) : Nat := item.m_trackCount

/-- Lines 79-82, shared by both overloads of `addTrackValue`: a value already in
the list is skipped by the callers; another one is stored while the item is new
or within the character limit. -/
def TagEditorItem.store (item : TagEditorItem) (value : QString) : TagEditorItem :=
  if item.m_trackCount == 0 || withinCharLimit item.m_values then
    { item with m_values := sortStrings (item.m_values ++ [value]) }
  else item

/-- The overload `TagEditorItem::addTrackValue(const QString&)`. -/
def TagEditorItem.addTrackValue (item : TagEditorItem) (value : QString) : TagEditorItem :=
  if item.m_values.contains value then item
  else
    let item1 := item.store value
    { item1 with m_trackCount := item1.m_trackCount + 1 }

/-- The overload `TagEditorItem::addTrackValue(const QStringList&)`. -/
def TagEditorItem.addTrackValues (item : TagEditorItem) (values : List QString) :
    TagEditorItem :=
  let item1 := values.foldl
    (fun it trackValue => if it.m_values.contains trackValue then it else it.store trackValue)
    item
  { item1 with m_trackCount := item1.m_trackCount + 1 }

/-- The member `TagEditorItem::setValue`. -/
def TagEditorItem.setValue (item : TagEditorItem) (values : List QString) : TagEditorItem :=
  { item with m_values := values, m_value := [] }

/-- A call on a `TagEditorItem`. -/
inductive TagCall where
  | addTrackValue (value : QString)
  | addTrackValues (values : List QString)
  | setValue (values : List QString)
  | value
deriving DecidableEq, Repr

/-- The item after one call. -/
def TagEditorItem.call (item : TagEditorItem) : TagCall → TagEditorItem
  | TagCall.addTrackValue value => item.addTrackValue value
  | TagCall.addTrackValues values => item.addTrackValues values
  | TagCall.setValue values => item.setValue values
  | TagCall.value => item.value.1

/-- The item after a sequence of calls. -/
def TagEditorItem.run (item : TagEditorItem) (calls : List TagCall) : TagEditorItem :=
  calls.foldl TagEditorItem.call item

/-- Every `addTrackValue` call of the sequence is made while the cached string
`m_value` is empty: no `value()` call has returned a non-empty string since the
construction or the last `setValue`. -/
def addsOnEmptyCache : TagEditorItem → List TagCall → Bool
  | _, [] => true
  | item, c :: rest =>
    (match c with
      | TagCall.addTrackValue _ => item.m_value.isEmpty
      | TagCall.addTrackValues _ => item.m_value.isEmpty
      | TagCall.setValue _ => true
      | TagCall.value => true)
    && addsOnEmptyCache (item.call c) rest

/-- The non-empty entries of the values list, joined with `; ` in list order. -/
def TagEditorItem.joined (item : TagEditorItem) : QString :=
  join (QStringLiteral "; ") (item.m_values.filter (fun v => v != []))

/-- Number of calls, in a sequence of single-string `addTrackValue` calls, whose
value is not in the values list when the call is made. -/
def countNew : TagEditorItem → List QString → Nat
  | _, [] => 0
  | item, v :: rest =>
    (if v ∈ item.m_values then 0 else 1) + countNew (item.addTrackValue v) rest

/-- The item after single-string `addTrackValue` calls with the given values. -/
def TagEditorItem.addAll (item : TagEditorItem) (values : List QString) : TagEditorItem :=
  values.foldl TagEditorItem.addTrackValue item

/-! ## LibraryTreeItem (`src/gui/librarytree/librarytreeitem.cpp`) -/

/-- The fields of `LibraryTreeItem` read by the ordering of `sortChildren`. -/
structure LibraryTreeItem where
  m_level : Int
  m_title : QString
deriving DecidableEq, Repr

/-- The ordering predicate that `LibraryTreeItem::sortChildren` passes to
`std::sort`; `compare` is `QCollator::compare` in numeric mode, a function of the
Qt library that depends on the locale. -/
def sortChildrenLess (compare : QString → QString → Int) (lhs rhs : LibraryTreeItem) : Bool :=
  if lhs.m_level == -1 then true
  else if rhs.m_level == -1 then false
  else
    let cmp := compare lhs.m_title rhs.m_title
    if cmp == 0 then false else decide (cmp < 0)

/-! ## Lemmas on `split` -/

theorem splitParts_append_cons (c : QChar) (a b : QString) (h : c ∉ a) :
    splitParts c (a ++ c :: b) = (a, split c b) := by
  induction a with
  | nil => simp [splitParts, split]
  | cons x xs ih =>
    have hx : x ≠ c := fun e => h (by simp [e])
    have hxs : c ∉ xs := fun e => h (by simp [e])
    simp [splitParts, ih hxs, hx]

theorem splitParts_of_not_mem (c : QChar) (s : QString) (h : c ∉ s) :
    splitParts c s = (s, []) := by
  induction s with
  | nil => simp [splitParts]
  | cons x xs ih =>
    have hx : x ≠ c := fun e => h (by simp [e])
    have hxs : c ∉ xs := fun e => h (by simp [e])
    simp [splitParts, ih hxs, hx]

theorem split_descriptor (name device : QString) (h : sep ∉ name) :
    split sep (descriptor name device)
      = name :: firstField device :: (splitParts sep device).2 := by
  simp [split, descriptor, splitParts_append_cons sep name device h, firstField]

theorem split_of_not_mem (s : QString) (h : sep ∉ s) : split sep s = [s] := by
  simp [split, splitParts_of_not_mem sep s h]

theorem firstField_of_not_mem (s : QString) (h : sep ∉ s) : firstField s = s := by
  simp [firstField, splitParts_of_not_mem sep s h]

theorem descriptor_ne_nil (name device : QString) : descriptor name device ≠ [] := by
  simp [descriptor]

theorem outputs_ne_nil_of_contains {κ : Type} (m : OutputMap κ) (name : QString)
    (h : contains m name = true) : m ≠ [] := by
  intro e
  simp [e, contains] at h

/-- What `changeOutput` does with a descriptor `name|device` whose name holds no
separator and is registered. -/
theorem changeOutput_registered {κ : Type} (p : Private κ) (name device : QString)
    (hsep : sep ∉ name) (hreg : contains p.outputs name = true) :
    changeOutput p (descriptor name device) =
      if p.currentOutput.name ≠ name then
        ({ p with currentOutput := { name := name, device := firstField device } },
          [Signal.outputChanged name, Signal.deviceChanged (firstField device)])
      else if p.currentOutput.device ≠ firstField device then
        ({ p with currentOutput := { p.currentOutput with device := firstField device } },
          [Signal.deviceChanged (firstField device)])
      else (p, []) := by
  have hne := outputs_ne_nil_of_contains p.outputs name hreg
  have hd := descriptor_ne_nil name device
  simp [changeOutput, applyDescriptor, hd, split_descriptor name device hsep, hreg, hne]

/-- What `changeOutput` does with a descriptor `name|device` whose name holds no
separator and is not registered. -/
theorem changeOutput_unregistered {κ : Type} (p : Private κ) (name device : QString)
    (hsep : sep ∉ name) (hreg : contains p.outputs name = false) :
    changeOutput p (descriptor name device) = (p, []) := by
  have hd := descriptor_ne_nil name device
  simp [changeOutput, applyDescriptor, hd, split_descriptor name device hsep, hreg]

/-- The state after `changeOutput("name|device")` for a registered name without
separator: the registry is untouched and the current output is the pair of the
name and the first field of the device. -/
theorem changeOutput_registered_state {κ : Type} (p : Private κ) (name device : QString)
    (hsep : sep ∉ name) (hreg : contains p.outputs name = true) :
    (changeOutput p (descriptor name device)).1
      = { p with currentOutput := { name := name, device := firstField device } } := by
  rw [changeOutput_registered p name device hsep hreg]
  obtain ⟨outs, ⟨n, d⟩⟩ := p
  by_cases h1 : n = name
  · by_cases h2 : d = firstField device
    · simp [h1, h2]
    · simp [h1, h2]
  · simp [h1]

theorem applyDescriptor_nil {κ : Type} (p : Private κ) : applyDescriptor p [] = (p, []) := by
  simp [applyDescriptor, split, splitParts]

/-- The three outcomes of the descriptor code: nothing, a new backend with both
signals, or a new device with one signal. -/
theorem applyDescriptor_cases {κ : Type} (p : Private κ) (output : QString) :
    applyDescriptor p output = (p, [])
    ∨ (∃ n d, p.currentOutput.name ≠ n ∧ contains p.outputs n = true
        ∧ applyDescriptor p output
          = ({ p with currentOutput := { name := n, device := d } },
              [Signal.outputChanged n, Signal.deviceChanged d]))
    ∨ (∃ d, p.currentOutput.device ≠ d
        ∧ applyDescriptor p output
          = ({ p with currentOutput := { p.currentOutput with device := d } },
              [Signal.deviceChanged d])) := by
  unfold applyDescriptor
  simp only []
  split_ifs with h1 h2 h3 h4 h5
  · exact Or.inl rfl
  · exact Or.inl rfl
  · exact Or.inl rfl
  · refine Or.inr (Or.inl ⟨_, _, ?_, ?_, rfl⟩)
    · simpa using h4
    · simpa using h3
  · refine Or.inr (Or.inr ⟨_, ?_, rfl⟩)
    simpa using h5
  · exact Or.inl rfl

theorem contains_head {κ : Type} (e : QString × κ) (rest : OutputMap κ) :
    contains (e :: rest) e.1 = true := by
  simp [contains]

theorem contains_emplace_of_contains {κ : Type} (m : OutputMap κ) (name : QString)
    (creator : κ) (n : QString) (h : contains m n = true) :
    contains (emplace m name creator) n = true := by
  induction m with
  | nil => simp [contains] at h
  | cons e rest ih =>
    unfold emplace
    split_ifs
    · simp only [contains, List.any_cons, Bool.or_eq_true] at h ⊢
      exact Or.inr h
    · simp only [contains, List.any_cons, Bool.or_eq_true] at h ih ⊢
      exact h.elim Or.inl (fun h2 => Or.inr (ih h2))
    · exact h

theorem applyDescriptor_nameRegistered {κ : Type} (p : Private κ) (output : QString)
    (h : NameRegistered p) : NameRegistered (applyDescriptor p output).1 := by
  rcases applyDescriptor_cases p output with h1 | ⟨n, d, _, hreg, h1⟩ | ⟨d, _, h1⟩
  · rw [h1]; exact h
  · rw [h1]; exact Or.inr hreg
  · rw [h1]; exact h

theorem changeOutput_of_ne_nil {κ : Type} (p : Private κ) (output : QString)
    (h : output ≠ []) : changeOutput p output = applyDescriptor p output := by
  cases output with
  | nil => exact absurd rfl h
  | cons x xs => simp [changeOutput]

theorem changeOutput_nil_of_outputs_nil {κ : Type} (p : Private κ)
    (h : p.outputs = []) : changeOutput p [] = (p, []) := by
  simp [changeOutput, h]

theorem changeOutput_nil_of_selected {κ : Type} (p : Private κ)
    (h : p.currentOutput.name ≠ []) : changeOutput p [] = (p, []) := by
  unfold changeOutput
  cases p.outputs with
  | nil => simp
  | cons first rest => simp [h]

theorem changeOutput_nil_select {κ : Type} (p : Private κ) (first : QString × κ)
    (rest : OutputMap κ) (hp : p.outputs = first :: rest)
    (h : p.currentOutput.name = []) :
    changeOutput p []
      = ({ p with currentOutput := { name := first.1, device := QStringLiteral "default" } },
          [Signal.outputChanged first.1, Signal.deviceChanged (QStringLiteral "default")]) := by
  simp [changeOutput, hp, h, applyDescriptor_nil]

theorem changeOutput_nameRegistered {κ : Type} (p : Private κ) (output : QString)
    (h : NameRegistered p) : NameRegistered (changeOutput p output).1 := by
  by_cases h0 : output = []
  · subst h0
    by_cases h1 : p.currentOutput.name = []
    · cases hp : p.outputs with
      | nil => rw [changeOutput_nil_of_outputs_nil p hp]; exact h
      | cons first rest =>
        rw [changeOutput_nil_select p first rest hp h1]
        exact Or.inr (by simp [hp, contains])
    · rw [changeOutput_nil_of_selected p h1]; exact h
  · rw [changeOutput_of_ne_nil p output h0]
    exact applyDescriptor_nameRegistered p output h

theorem addOutput_nameRegistered {κ : Type} (p : Private κ) (output : AudioOutputBuilder κ)
    (h : NameRegistered p) : NameRegistered (addOutput p output) := by
  unfold addOutput
  split_ifs
  · exact h
  · exact h.elim Or.inl
      (fun h2 => Or.inr (contains_emplace_of_contains p.outputs _ _ _ h2))

theorem foldl_nameRegistered {κ : Type} (calls : List (Call κ)) (p : Private κ)
    (h : NameRegistered p) : NameRegistered (calls.foldl applyCall p) := by
  induction calls generalizing p with
  | nil => exact h
  | cons c cs ih =>
    simp only [List.foldl_cons]
    apply ih
    cases c with
    | addOutput output => exact addOutput_nameRegistered p output h
    | changeOutput output => exact changeOutput_nameRegistered p output h
    | setup configured => exact changeOutput_nameRegistered p configured h

/-! ## Lemmas on the key order and on the registry -/

theorem qLess_irrefl (a : List Nat) : qLess a a = false := by
  induction a with
  | nil => rfl
  | cons x xs ih => simp [qLess, ih]

theorem qLess_asymm (a b : List Nat) (h : qLess a b = true) : qLess b a = false := by
  induction a generalizing b with
  | nil => cases b <;> simp [qLess] at h ⊢
  | cons x xs ih =>
    cases b with
    | nil => simp [qLess] at h
    | cons y ys =>
      simp only [qLess] at h ⊢
      by_cases h1 : x < y
      · have h2 : ¬ y < x := by omega
        simp [h2, h1]
      · by_cases h2 : y < x
        · simp [h1, h2] at h
        · simp only [h1, h2, if_false] at h ⊢
          exact ih ys h

theorem qLess_trans (a b c : List Nat) (h1 : qLess a b = true) (h2 : qLess b c = true) :
    qLess a c = true := by
  induction a generalizing b c with
  | nil =>
    cases b with
    | nil => simp [qLess] at h1
    | cons y ys =>
      cases c with
      | nil => simp [qLess] at h2
      | cons z zs => simp [qLess]
  | cons x xs ih =>
    cases b with
    | nil => simp [qLess] at h1
    | cons y ys =>
      cases c with
      | nil => simp [qLess] at h2
      | cons z zs =>
        simp only [qLess] at h1 h2 ⊢
        by_cases hxy : x < y
        · by_cases hyz : y < z
          · have : x < z := by omega
            simp [this]
          · by_cases hzy : z < y
            · simp [hyz, hzy] at h2
            · have : x < z := by omega
              simp [this]
        · by_cases hyx : y < x
          · simp [hxy, hyx] at h1
          · simp only [hxy, hyx, if_false] at h1
            have hxy2 : x = y := by omega
            subst hxy2
            by_cases hyz : x < z
            · simp [hyz]
            · by_cases hzy : z < x
              · simp [hyz, hzy] at h2
              · simp only [hyz, hzy, if_false] at h2 ⊢
                exact ih ys zs h1 h2

theorem qLess_total (a b : List Nat) (h1 : qLess a b = false) (h2 : qLess b a = false) :
    a = b := by
  induction a generalizing b with
  | nil => cases b <;> simp [qLess] at h1 ⊢
  | cons x xs ih =>
    cases b with
    | nil => simp [qLess] at h2
    | cons y ys =>
      simp only [qLess] at h1 h2
      by_cases hxy : x < y
      · simp [hxy] at h1
      · by_cases hyx : y < x
        · simp [hyx] at h2
        · simp only [hxy, hyx, if_false] at h1 h2
          have hxy2 : x = y := by omega
          rw [hxy2, ih ys h1 h2]

theorem contains_cons {κ : Type} (e : QString × κ) (rest : OutputMap κ) (k : QString) :
    contains (e :: rest) k = (e.1 == k || contains rest k) := by
  simp [contains]

theorem contains_iff_mem_keys {κ : Type} (m : OutputMap κ) (k : QString) :
    contains m k = true ↔ k ∈ m.map (fun e => e.1) := by
  induction m with
  | nil => simp [contains]
  | cons e rest ih =>
    rw [contains_cons, Bool.or_eq_true, ih, List.map_cons, List.mem_cons, beq_iff_eq]
    constructor
    · exact fun h => h.elim (fun h1 => Or.inl h1.symm) Or.inr
    · exact fun h => h.elim (fun h1 => Or.inl h1.symm) Or.inr

theorem emplace_cons_lt {κ : Type} (e : QString × κ) (rest : OutputMap κ) (k : QString)
    (v : κ) (h : qLess k e.1 = true) : emplace (e :: rest) k v = (k, v) :: e :: rest := by
  simp [emplace, h]

theorem emplace_cons_gt {κ : Type} (e : QString × κ) (rest : OutputMap κ) (k : QString)
    (v : κ) (h1 : qLess k e.1 = false) (h2 : qLess e.1 k = true) :
    emplace (e :: rest) k v = e :: emplace rest k v := by
  simp [emplace, h1, h2]

theorem emplace_cons_eq {κ : Type} (e : QString × κ) (rest : OutputMap κ) (k : QString)
    (v : κ) (h1 : qLess k e.1 = false) (h2 : qLess e.1 k = false) :
    emplace (e :: rest) k v = e :: rest := by
  simp [emplace, h1, h2]

theorem mapAt_cons_of_eq {κ : Type} (e : QString × κ) (rest : OutputMap κ) (k : QString)
    (h : contains (e :: rest) k = true) (he : e.1 = k) : mapAt (e :: rest) k h = e.2 := by
  simp [mapAt, he]

theorem mapAt_cons_of_ne {κ : Type} (e : QString × κ) (rest : OutputMap κ) (k : QString)
    (h : contains (e :: rest) k = true) (he : e.1 ≠ k) (h2 : contains rest k = true) :
    mapAt (e :: rest) k h = mapAt rest k h2 := by
  simp [mapAt, he]

/-- The value found by `mapAt` does not depend on how the map is written. -/
theorem mapAt_congr {κ : Type} (m1 m2 : OutputMap κ) (k : QString) (e : m1 = m2)
    (h1 : contains m1 k = true) (h2 : contains m2 k = true) :
    mapAt m1 k h1 = mapAt m2 k h2 := by
  subst e
  rfl

/-- On a map without the key, `emplace` adds the entry and keeps all others. -/
theorem emplace_perm {κ : Type} (m : OutputMap κ) (k : QString) (v : κ)
    (h : contains m k = false) : (emplace m k v).Perm ((k, v) :: m) := by
  induction m with
  | nil => simp [emplace]
  | cons e rest ih =>
    rw [contains_cons, Bool.or_eq_false_iff] at h
    have hne : e.1 ≠ k := by simpa using h.1
    cases h1 : qLess k e.1 with
    | true => rw [emplace_cons_lt e rest k v h1]
    | false =>
      cases h2 : qLess e.1 k with
      | true =>
        rw [emplace_cons_gt e rest k v h1 h2]
        exact ((ih h.2).cons e).trans (List.Perm.swap _ _ _)
      | false => exact absurd (qLess_total e.1 k h2 h1) hne

theorem emplace_mapAt_self {κ : Type} (m : OutputMap κ) (k : QString) (v : κ)
    (h : contains m k = false) :
    ∃ h2 : contains (emplace m k v) k = true, mapAt (emplace m k v) k h2 = v := by
  induction m with
  | nil => exact ⟨by simp [emplace, contains], by simp [emplace, mapAt]⟩
  | cons e rest ih =>
    rw [contains_cons, Bool.or_eq_false_iff] at h
    have hne : e.1 ≠ k := by simpa using h.1
    cases h1 : qLess k e.1 with
    | true =>
      have h5 : contains ((k, v) :: e :: rest) k = true := by simp [contains]
      have h6 := emplace_cons_lt e rest k v h1
      exact ⟨by rw [h6]; exact h5, by
        rw [mapAt_congr _ _ k h6 _ h5, mapAt_cons_of_eq (k, v) (e :: rest) k h5 rfl]⟩
    | false =>
      cases h2 : qLess e.1 k with
      | true =>
        obtain ⟨h3, h4⟩ := ih h.2
        have h5 : contains (e :: emplace rest k v) k = true := by
          rw [contains_cons, h3]; simp
        have h6 := emplace_cons_gt e rest k v h1 h2
        exact ⟨by rw [h6]; exact h5, by
          rw [mapAt_congr _ _ k h6 _ h5, mapAt_cons_of_ne e _ k h5 hne h3, h4]⟩
      | false => exact absurd (qLess_total e.1 k h2 h1) hne

theorem emplace_mapAt_other {κ : Type} (m : OutputMap κ) (k : QString) (v : κ)
    (h : contains m k = false) (k2 : QString) (hk : contains m k2 = true) :
    ∃ h2 : contains (emplace m k v) k2 = true,
      mapAt (emplace m k v) k2 h2 = mapAt m k2 hk := by
  have hkk : k ≠ k2 := by
    intro e
    rw [e, hk] at h
    exact Bool.noConfusion h
  induction m with
  | nil => simp [contains] at hk
  | cons e rest ih =>
    rw [contains_cons, Bool.or_eq_false_iff] at h
    have hne : e.1 ≠ k := by simpa using h.1
    cases h1 : qLess k e.1 with
    | true =>
      have h5 : contains ((k, v) :: e :: rest) k2 = true := by
        rw [contains_cons, hk]; simp
      have h6 := emplace_cons_lt e rest k v h1
      exact ⟨by rw [h6]; exact h5, by
        rw [mapAt_congr _ _ k2 h6 _ h5, mapAt_cons_of_ne (k, v) (e :: rest) k2 h5 hkk hk]⟩
    | false =>
      cases h2 : qLess e.1 k with
      | true =>
        have h6 := emplace_cons_gt e rest k v h1 h2
        by_cases he : e.1 = k2
        · have h5 : contains (e :: emplace rest k v) k2 = true := by
            rw [contains_cons]; simp [he]
          exact ⟨by rw [h6]; exact h5, by
            rw [mapAt_congr _ _ k2 h6 _ h5, mapAt_cons_of_eq e _ k2 h5 he,
              mapAt_cons_of_eq e _ k2 hk he]⟩
        · have hk2 : contains rest k2 = true := by
            rw [contains_cons] at hk
            simpa [he] using hk
          obtain ⟨h3, h4⟩ := ih h.2 hk2
          have h5 : contains (e :: emplace rest k v) k2 = true := by
            rw [contains_cons, h3]; simp
          exact ⟨by rw [h6]; exact h5, by
            rw [mapAt_congr _ _ k2 h6 _ h5, mapAt_cons_of_ne e _ k2 h5 he h3,
              mapAt_cons_of_ne e _ k2 hk he hk2, h4]⟩
      | false => exact absurd (qLess_total e.1 k h2 h1) hne

/-! ## Claims on `changeOutput` -/

/-- C1 (as amended): for a registered backend name `B` that is non-empty and holds
no `|`, and any device string `D`, starting with no output selected, the first
`changeOutput("B|D")` emits `outputChanged(B)` then `deviceChanged` (with the
first field of `D`), the second call emits nothing and leaves the state as it is;
in total one `outputChanged` and one `deviceChanged`. -/
theorem changeOutput_twice_one_pair {κ : Type} (p : Private κ) (B D : QString)
    (hB : B ≠ []) (hsep : sep ∉ B) (hreg : contains p.outputs B = true)
    (hnone : p.currentOutput.name = []) :
    (changeOutput p (descriptor B D)).2
        = [Signal.outputChanged B, Signal.deviceChanged (firstField D)]
      ∧ changeOutput (changeOutput p (descriptor B D)).1 (descriptor B D)
        = ((changeOutput p (descriptor B D)).1, [])
      ∧ countOutputChanged ((changeOutput p (descriptor B D)).2
          ++ (changeOutput (changeOutput p (descriptor B D)).1 (descriptor B D)).2) = 1
      ∧ countDeviceChanged ((changeOutput p (descriptor B D)).2
          ++ (changeOutput (changeOutput p (descriptor B D)).1 (descriptor B D)).2) = 1 := by
  have hne : p.currentOutput.name ≠ B := by rw [hnone]; exact fun e => hB e.symm
  have h1 : changeOutput p (descriptor B D)
      = ({ p with currentOutput := { name := B, device := firstField D } },
          [Signal.outputChanged B, Signal.deviceChanged (firstField D)]) := by
    rw [changeOutput_registered p B D hsep hreg]; simp [hne]
  have h2 : changeOutput
        ({ p with currentOutput := { name := B, device := firstField D } } : Private κ)
        (descriptor B D)
      = ({ p with currentOutput := { name := B, device := firstField D } }, []) := by
    rw [changeOutput_registered
      ({ p with currentOutput := { name := B, device := firstField D } } : Private κ)
      B D hsep hreg]
    simp
  rw [h1]
  simp only [h2]
  simp [countOutputChanged, countDeviceChanged]

/-- Witness for C1: the backend `alsa` of a two-backend registry, device `hw:0`. -/
theorem changeOutput_twice_one_pair_witness :
    (QStringLiteral "alsa" ≠ [] ∧ sep ∉ QStringLiteral "alsa"
      ∧ contains twoBackends.outputs (QStringLiteral "alsa") = true
      ∧ twoBackends.currentOutput.name = [])
    ∧ ((changeOutput twoBackends (descriptor (QStringLiteral "alsa") (QStringLiteral "hw:0"))).2
        = [Signal.outputChanged (QStringLiteral "alsa"),
            Signal.deviceChanged (firstField (QStringLiteral "hw:0"))]
      ∧ changeOutput (changeOutput twoBackends
            (descriptor (QStringLiteral "alsa") (QStringLiteral "hw:0"))).1
          (descriptor (QStringLiteral "alsa") (QStringLiteral "hw:0"))
        = ((changeOutput twoBackends
            (descriptor (QStringLiteral "alsa") (QStringLiteral "hw:0"))).1, [])
      ∧ countOutputChanged ((changeOutput twoBackends
            (descriptor (QStringLiteral "alsa") (QStringLiteral "hw:0"))).2
          ++ (changeOutput (changeOutput twoBackends
                (descriptor (QStringLiteral "alsa") (QStringLiteral "hw:0"))).1
              (descriptor (QStringLiteral "alsa") (QStringLiteral "hw:0"))).2) = 1
      ∧ countDeviceChanged ((changeOutput twoBackends
            (descriptor (QStringLiteral "alsa") (QStringLiteral "hw:0"))).2
          ++ (changeOutput (changeOutput twoBackends
                (descriptor (QStringLiteral "alsa") (QStringLiteral "hw:0"))).1
              (descriptor (QStringLiteral "alsa") (QStringLiteral "hw:0"))).2) = 1) :=
  ⟨by decide,
    changeOutput_twice_one_pair twoBackends (QStringLiteral "alsa") (QStringLiteral "hw:0")
      (by decide) (by decide) (by decide) (by decide)⟩

/-- C1 as stated fails: with the registered backend name `a|b` (nothing selected)
two calls `changeOutput("a|b|x")` emit no signal at all, and with a backend
registered under the empty name two calls `changeOutput("|x")` emit one
`deviceChanged` and no `outputChanged`. -/
theorem changeOutput_twice_counterexample :
    (contains pipeNamed.outputs (QStringLiteral "a|b") = true
      ∧ pipeNamed.currentOutput.name = []
      ∧ (changeOutput pipeNamed (descriptor (QStringLiteral "a|b") (QStringLiteral "x"))).2
          ++ (changeOutput (changeOutput pipeNamed
                (descriptor (QStringLiteral "a|b") (QStringLiteral "x"))).1
              (descriptor (QStringLiteral "a|b") (QStringLiteral "x"))).2 = []
      ∧ countOutputChanged
          ((changeOutput pipeNamed (descriptor (QStringLiteral "a|b") (QStringLiteral "x"))).2
          ++ (changeOutput (changeOutput pipeNamed
                (descriptor (QStringLiteral "a|b") (QStringLiteral "x"))).1
              (descriptor (QStringLiteral "a|b") (QStringLiteral "x"))).2) ≠ 1)
    ∧ (contains emptyNamed.outputs [] = true
      ∧ emptyNamed.currentOutput.name = []
      ∧ (changeOutput emptyNamed (descriptor [] (QStringLiteral "x"))).2
          ++ (changeOutput (changeOutput emptyNamed (descriptor [] (QStringLiteral "x"))).1
              (descriptor [] (QStringLiteral "x"))).2
          = [Signal.deviceChanged (QStringLiteral "x")]
      ∧ countOutputChanged
          ((changeOutput emptyNamed (descriptor [] (QStringLiteral "x"))).2
          ++ (changeOutput (changeOutput emptyNamed (descriptor [] (QStringLiteral "x"))).1
              (descriptor [] (QStringLiteral "x"))).2) ≠ 1) := by
  decide

/-- C2 (as amended): for a registered backend `A` and device strings `d1`, `d2`
where `A` and `d2` hold no `|` and `d2` differs from the first field of `d1`
(from `d1` itself when `d1` holds no `|`), after `changeOutput("A|d1")` the call
`changeOutput("A|d2")` emits exactly one `deviceChanged(d2)` and no
`outputChanged`, and the current output becomes `{A, d2}`. -/
theorem changeOutput_same_backend_device_only {κ : Type} (p : Private κ)
    (A d1 d2 : QString) (hA : sep ∉ A) (hd2 : sep ∉ d2)
    (hreg : contains p.outputs A = true) (hne : d2 ≠ firstField d1) :
    (changeOutput (changeOutput p (descriptor A d1)).1 (descriptor A d2)).2
        = [Signal.deviceChanged d2]
      ∧ (changeOutput (changeOutput p (descriptor A d1)).1 (descriptor A d2)).1.currentOutput
        = { name := A, device := d2 } := by
  rw [changeOutput_registered_state p A d1 hA hreg]
  rw [changeOutput_registered
    ({ p with currentOutput := { name := A, device := firstField d1 } } : Private κ)
    A d2 hA hreg]
  have hne2 : firstField d1 ≠ d2 := fun e => hne e.symm
  simp [firstField_of_not_mem d2 hd2, hne2]

/-- Witness for C2: `alsa|hw:0` then `alsa|hw:1` on a two-backend registry. -/
theorem changeOutput_same_backend_device_only_witness :
    (sep ∉ QStringLiteral "alsa" ∧ sep ∉ QStringLiteral "hw:1"
      ∧ contains twoBackends.outputs (QStringLiteral "alsa") = true
      ∧ QStringLiteral "hw:1" ≠ firstField (QStringLiteral "hw:0"))
    ∧ ((changeOutput (changeOutput twoBackends
            (descriptor (QStringLiteral "alsa") (QStringLiteral "hw:0"))).1
          (descriptor (QStringLiteral "alsa") (QStringLiteral "hw:1"))).2
        = [Signal.deviceChanged (QStringLiteral "hw:1")]
      ∧ (changeOutput (changeOutput twoBackends
            (descriptor (QStringLiteral "alsa") (QStringLiteral "hw:0"))).1
          (descriptor (QStringLiteral "alsa") (QStringLiteral "hw:1"))).1.currentOutput
        = { name := QStringLiteral "alsa", device := QStringLiteral "hw:1" }) :=
  ⟨by decide,
    changeOutput_same_backend_device_only twoBackends (QStringLiteral "alsa")
      (QStringLiteral "hw:0") (QStringLiteral "hw:1")
      (by decide) (by decide) (by decide) (by decide)⟩

/-- C2 as stated fails: with `d1 = d2 = hw:0` the second call emits nothing; with
`d2 = y|z` the second call emits `deviceChanged(y)` and the device becomes `y`;
with the registered name `a|b` the second call emits nothing. -/
theorem changeOutput_same_backend_counterexample :
    (contains twoBackends.outputs (QStringLiteral "alsa") = true
      ∧ (changeOutput (changeOutput twoBackends
            (descriptor (QStringLiteral "alsa") (QStringLiteral "hw:0"))).1
          (descriptor (QStringLiteral "alsa") (QStringLiteral "hw:0"))).2 = [])
    ∧ (contains twoBackends.outputs (QStringLiteral "alsa") = true
      ∧ (changeOutput (changeOutput twoBackends
            (descriptor (QStringLiteral "alsa") (QStringLiteral "x"))).1
          (descriptor (QStringLiteral "alsa") (QStringLiteral "y|z"))).2
        = [Signal.deviceChanged (QStringLiteral "y")]
      ∧ (changeOutput (changeOutput twoBackends
            (descriptor (QStringLiteral "alsa") (QStringLiteral "x"))).1
          (descriptor (QStringLiteral "alsa") (QStringLiteral "y|z"))).1.currentOutput
        ≠ { name := QStringLiteral "alsa", device := QStringLiteral "y|z" })
    ∧ (contains pipeNamed.outputs (QStringLiteral "a|b") = true
      ∧ (changeOutput (changeOutput pipeNamed
            (descriptor (QStringLiteral "a|b") (QStringLiteral "x"))).1
          (descriptor (QStringLiteral "a|b") (QStringLiteral "y"))).2 = []) := by
  decide

/-- C3 (as amended): for registered backends `A ≠ B` and device strings `d1`, `d2`
where `A`, `B` and `d2` hold no `|`, after `changeOutput("A|d1")` the call
`changeOutput("B|d2")` emits exactly `outputChanged(B)` then `deviceChanged(d2)`
and leaves the current output `{B, d2}`; `d1 = d2` is allowed. -/
theorem changeOutput_other_backend_both {κ : Type} (p : Private κ)
    (A B d1 d2 : QString) (hA : sep ∉ A) (hB : sep ∉ B) (hd2 : sep ∉ d2)
    (hregA : contains p.outputs A = true) (hregB : contains p.outputs B = true)
    (hAB : A ≠ B) :
    (changeOutput (changeOutput p (descriptor A d1)).1 (descriptor B d2)).2
        = [Signal.outputChanged B, Signal.deviceChanged d2]
      ∧ (changeOutput (changeOutput p (descriptor A d1)).1 (descriptor B d2)).1.currentOutput
        = { name := B, device := d2 } := by
  rw [changeOutput_registered_state p A d1 hA hregA]
  rw [changeOutput_registered
    ({ p with currentOutput := { name := A, device := firstField d1 } } : Private κ)
    B d2 hB hregB]
  simp [firstField_of_not_mem d2 hd2, hAB]

/-- Witness for C3: `alsa|hw:0` then `pipewire|hw:0` (the same device string). -/
theorem changeOutput_other_backend_both_witness :
    (sep ∉ QStringLiteral "alsa" ∧ sep ∉ QStringLiteral "pipewire"
      ∧ sep ∉ QStringLiteral "hw:0"
      ∧ contains twoBackends.outputs (QStringLiteral "alsa") = true
      ∧ contains twoBackends.outputs (QStringLiteral "pipewire") = true
      ∧ QStringLiteral "alsa" ≠ QStringLiteral "pipewire")
    ∧ ((changeOutput (changeOutput twoBackends
            (descriptor (QStringLiteral "alsa") (QStringLiteral "hw:0"))).1
          (descriptor (QStringLiteral "pipewire") (QStringLiteral "hw:0"))).2
        = [Signal.outputChanged (QStringLiteral "pipewire"),
            Signal.deviceChanged (QStringLiteral "hw:0")]
      ∧ (changeOutput (changeOutput twoBackends
            (descriptor (QStringLiteral "alsa") (QStringLiteral "hw:0"))).1
          (descriptor (QStringLiteral "pipewire") (QStringLiteral "hw:0"))).1.currentOutput
        = { name := QStringLiteral "pipewire", device := QStringLiteral "hw:0" }) :=
  ⟨by decide,
    changeOutput_other_backend_both twoBackends (QStringLiteral "alsa")
      (QStringLiteral "pipewire") (QStringLiteral "hw:0") (QStringLiteral "hw:0")
      (by decide) (by decide) (by decide) (by decide) (by decide) (by decide)⟩

/-- C3 as stated fails: with `d2 = y|z` the second call emits `deviceChanged(y)`,
not `deviceChanged(y|z)`; with the registered names `A = b|x` and `B = b` the
second call `changeOutput("b|d")` emits `deviceChanged` only; with the registered
names `A = b` and `B = b|x` the second call `changeOutput("b|x|d")` emits
`deviceChanged(x)` only. -/
theorem changeOutput_other_backend_counterexample :
    (contains twoBackends.outputs (QStringLiteral "alsa") = true
      ∧ contains twoBackends.outputs (QStringLiteral "pipewire") = true
      ∧ QStringLiteral "alsa" ≠ QStringLiteral "pipewire"
      ∧ (changeOutput (changeOutput twoBackends
            (descriptor (QStringLiteral "alsa") (QStringLiteral "x"))).1
          (descriptor (QStringLiteral "pipewire") (QStringLiteral "y|z"))).2
        = [Signal.outputChanged (QStringLiteral "pipewire"),
            Signal.deviceChanged (QStringLiteral "y")])
    ∧ (contains prefixNamed.outputs (QStringLiteral "b|x") = true
      ∧ contains prefixNamed.outputs (QStringLiteral "b") = true
      ∧ QStringLiteral "b|x" ≠ QStringLiteral "b"
      ∧ (changeOutput (changeOutput prefixNamed
            (descriptor (QStringLiteral "b|x") (QStringLiteral "d"))).1
          (descriptor (QStringLiteral "b") (QStringLiteral "d"))).2
        = [Signal.deviceChanged (QStringLiteral "d")])
    ∧ (contains prefixNamed.outputs (QStringLiteral "b") = true
      ∧ contains prefixNamed.outputs (QStringLiteral "b|x") = true
      ∧ QStringLiteral "b" ≠ QStringLiteral "b|x"
      ∧ (changeOutput (changeOutput prefixNamed
            (descriptor (QStringLiteral "b") (QStringLiteral "d"))).1
          (descriptor (QStringLiteral "b|x") (QStringLiteral "d"))).2
        = [Signal.deviceChanged (QStringLiteral "x")]) := by
  decide

/-- C4: for every state and every descriptor `N|D` whose name part `N` (the text
before the first `|`) is not a key of the registry, the registry being empty
included, `changeOutput` leaves the state, hence the current name and device,
unchanged and emits no signal. -/
theorem changeOutput_unregistered_noop {κ : Type} (p : Private κ) (N D : QString)
    (hN : sep ∉ N) (hreg : contains p.outputs N = false) :
    (changeOutput p (descriptor N D)).1 = p
      ∧ (changeOutput p (descriptor N D)).1.currentOutput = p.currentOutput
      ∧ (changeOutput p (descriptor N D)).2 = [] := by
  rw [changeOutput_unregistered p N D hN hreg]
  exact ⟨rfl, rfl, rfl⟩

/-- Witness for C4: `jack|hw:0` on a registry holding `alsa` and `pipewire`. -/
theorem changeOutput_unregistered_noop_witness :
    (sep ∉ QStringLiteral "jack"
      ∧ contains twoBackends.outputs (QStringLiteral "jack") = false)
    ∧ ((changeOutput twoBackends
          (descriptor (QStringLiteral "jack") (QStringLiteral "hw:0"))).1 = twoBackends
      ∧ (changeOutput twoBackends
          (descriptor (QStringLiteral "jack") (QStringLiteral "hw:0"))).1.currentOutput
        = twoBackends.currentOutput
      ∧ (changeOutput twoBackends
          (descriptor (QStringLiteral "jack") (QStringLiteral "hw:0"))).2 = []) :=
  ⟨by decide,
    changeOutput_unregistered_noop twoBackends (QStringLiteral "jack") (QStringLiteral "hw:0")
      (by decide) (by decide)⟩

/-- C5: for every state and every non-empty descriptor without `|`, `changeOutput`
leaves the state (hence the current output) unchanged and emits no signal. -/
theorem changeOutput_no_separator_noop {κ : Type} (p : Private κ) (output : QString)
    (hne : output ≠ []) (hsep : sep ∉ output) :
    (changeOutput p output).1 = p
      ∧ (changeOutput p output).1.currentOutput = p.currentOutput
      ∧ (changeOutput p output).2 = [] := by
  have h : changeOutput p output = (p, []) := by
    rw [changeOutput_of_ne_nil p output hne]
    simp [applyDescriptor, split_of_not_mem output hsep]
  rw [h]
  exact ⟨rfl, rfl, rfl⟩

/-- Witness for C5: the descriptor `alsa` while `alsa` is registered. -/
theorem changeOutput_no_separator_noop_witness :
    (QStringLiteral "alsa" ≠ [] ∧ sep ∉ QStringLiteral "alsa")
    ∧ ((changeOutput twoBackends (QStringLiteral "alsa")).1 = twoBackends
      ∧ (changeOutput twoBackends (QStringLiteral "alsa")).1.currentOutput
        = twoBackends.currentOutput
      ∧ (changeOutput twoBackends (QStringLiteral "alsa")).2 = []) :=
  ⟨by decide,
    changeOutput_no_separator_noop twoBackends (QStringLiteral "alsa")
      (by decide) (by decide)⟩

/-- C6: with an empty registry `changeOutput("")` returns (the function is total),
emits no signal and leaves the state, hence the current output, unchanged,
whatever the current output is. -/
theorem changeOutput_empty_no_backends {κ : Type} (p : Private κ)
    (h : p.outputs = []) :
    (changeOutput p []).1 = p
      ∧ (changeOutput p []).1.currentOutput = p.currentOutput
      ∧ (changeOutput p []).2 = []
      ∧ countOutputChanged (changeOutput p []).2 = 0
      ∧ countDeviceChanged (changeOutput p []).2 = 0 := by
  rw [changeOutput_nil_of_outputs_nil p h]
  exact ⟨rfl, rfl, rfl, rfl, rfl⟩

/-- Witness for C6: the state right after construction. -/
theorem changeOutput_empty_no_backends_witness :
    (Private.init Nat).outputs = []
    ∧ ((changeOutput (Private.init Nat) []).1 = Private.init Nat
      ∧ (changeOutput (Private.init Nat) []).1.currentOutput
        = (Private.init Nat).currentOutput
      ∧ (changeOutput (Private.init Nat) []).2 = []
      ∧ countOutputChanged (changeOutput (Private.init Nat) []).2 = 0
      ∧ countDeviceChanged (changeOutput (Private.init Nat) []).2 = 0) :=
  ⟨rfl, changeOutput_empty_no_backends (Private.init Nat) rfl⟩

/-- C7: with at least one registered backend and no output selected,
`changeOutput("")` sets the current output to `{n, "default"}` for the first
element `n` of `getAllOutputs()`, leaves the registry as it is, and emits exactly
`outputChanged(n)` followed by `deviceChanged("default")`. -/
theorem changeOutput_empty_selects_first {κ : Type} (p : Private κ)
    (hreg : p.outputs ≠ []) (hnone : p.currentOutput.name = []) :
    ∃ n, (getAllOutputs p).head? = some n
      ∧ (changeOutput p []).1
        = { p with currentOutput := { name := n, device := QStringLiteral "default" } }
      ∧ (changeOutput p []).2
        = [Signal.outputChanged n, Signal.deviceChanged (QStringLiteral "default")] := by
  cases hp : p.outputs with
  | nil => exact absurd hp hreg
  | cons first rest =>
    refine ⟨first.1, by simp [getAllOutputs, hp], ?_, ?_⟩
    · rw [changeOutput_nil_select p first rest hp hnone, ← hp]
    · rw [changeOutput_nil_select p first rest hp hnone]

/-- Witness for C7: a registry holding `alsa` and `pipewire`, nothing selected. -/
theorem changeOutput_empty_selects_first_witness :
    (twoBackends.outputs ≠ [] ∧ twoBackends.currentOutput.name = [])
    ∧ ∃ n, (getAllOutputs twoBackends).head? = some n
      ∧ (changeOutput twoBackends []).1
        = { twoBackends with
            currentOutput := { name := n, device := QStringLiteral "default" } }
      ∧ (changeOutput twoBackends []).2
        = [Signal.outputChanged n, Signal.deviceChanged (QStringLiteral "default")] :=
  ⟨by decide, changeOutput_empty_selects_first twoBackends (by decide) (by decide)⟩

/-- C8: when an output is already selected, `changeOutput("")` leaves the state,
hence the current name and device, unchanged and emits no signal, whatever the
registry holds. -/
theorem changeOutput_empty_keeps_selection {κ : Type} (p : Private κ)
    (h : p.currentOutput.name ≠ []) :
    (changeOutput p []).1 = p
      ∧ (changeOutput p []).1.currentOutput.name = p.currentOutput.name
      ∧ (changeOutput p []).1.currentOutput.device = p.currentOutput.device
      ∧ (changeOutput p []).2 = [] := by
  rw [changeOutput_nil_of_selected p h]
  exact ⟨rfl, rfl, rfl, rfl⟩

/-- Witness for C8: `pipewire|hw:1` selected in a two-backend registry. -/
theorem changeOutput_empty_keeps_selection_witness :
    (changeOutput twoBackends
        (descriptor (QStringLiteral "pipewire") (QStringLiteral "hw:1"))).1.currentOutput.name
      ≠ []
    ∧ ((changeOutput (changeOutput twoBackends
          (descriptor (QStringLiteral "pipewire") (QStringLiteral "hw:1"))).1 []).1
        = (changeOutput twoBackends
          (descriptor (QStringLiteral "pipewire") (QStringLiteral "hw:1"))).1
      ∧ (changeOutput (changeOutput twoBackends
          (descriptor (QStringLiteral "pipewire")
            (QStringLiteral "hw:1"))).1 []).1.currentOutput.name
        = (changeOutput twoBackends
          (descriptor (QStringLiteral "pipewire") (QStringLiteral "hw:1"))).1.currentOutput.name
      ∧ (changeOutput (changeOutput twoBackends
          (descriptor (QStringLiteral "pipewire")
            (QStringLiteral "hw:1"))).1 []).1.currentOutput.device
        = (changeOutput twoBackends
          (descriptor (QStringLiteral "pipewire")
            (QStringLiteral "hw:1"))).1.currentOutput.device
      ∧ (changeOutput (changeOutput twoBackends
          (descriptor (QStringLiteral "pipewire") (QStringLiteral "hw:1"))).1 []).2 = []) :=
  ⟨by decide,
    changeOutput_empty_keeps_selection
      (changeOutput twoBackends
        (descriptor (QStringLiteral "pipewire") (QStringLiteral "hw:1"))).1
      (by decide)⟩

/-- C10: in every state reached from construction by a sequence of `addOutput`,
`changeOutput` and `setup` calls, the current name is empty or is a key of the
registry. -/
theorem reachable_name_empty_or_registered {κ : Type} (calls : List (Call κ)) :
    (run calls).currentOutput.name = []
      ∨ contains (run calls).outputs (run calls).currentOutput.name = true :=
  foldl_nameRegistered calls (Private.init κ) (Or.inl rfl)

/-! ## Claims on the event handlers -/

/-- C14: `handleStateChange` makes no controller call for `Playing`, one
`pause()` for `Paused`, one `stop()` for `Stopped` and one `stop()` for `Error`,
and nothing else; so over any sequence of state events the `stop()` calls number
the `Stopped` and `Error` events, the `pause()` calls number the `Paused` events
and `next()` is never called. -/
theorem handleStateChange_table (states : List PlaybackState) :
    handleStateChange PlaybackState.Playing = []
      ∧ handleStateChange PlaybackState.Paused = [ControllerCall.pause]
      ∧ handleStateChange PlaybackState.Stopped = [ControllerCall.stop]
      ∧ handleStateChange PlaybackState.Error = [ControllerCall.stop]
      ∧ (states.flatMap handleStateChange).count ControllerCall.stop
          = states.count PlaybackState.Stopped + states.count PlaybackState.Error
      ∧ (states.flatMap handleStateChange).count ControllerCall.pause
          = states.count PlaybackState.Paused
      ∧ (states.flatMap handleStateChange).count ControllerCall.next = 0 := by
  refine ⟨rfl, rfl, rfl, rfl, ?_⟩
  induction states with
  | nil => simp
  | cons st rest ih =>
    obtain ⟨h1, h2, h3⟩ := ih
    cases st <;>
      simp [List.flatMap_cons, handleStateChange, List.count_cons, h1, h2, h3] <;> omega

/-- C15: for `EndOfTrack` the handler calls `controller.next()` once and makes no
other controller call; over any sequence of track-status events the number of
`next()` calls is the number of `EndOfTrack` events. -/
theorem handleTrackStatus_endOfTrack (statuses : List TrackStatus) :
    controllerCalls (handleTrackStatus TrackStatus.EndOfTrack) = [ControllerCall.next]
      ∧ (controllerCalls (handleTrackStatuses statuses)).count ControllerCall.next
          = statuses.count TrackStatus.EndOfTrack := by
  refine ⟨rfl, ?_⟩
  induction statuses with
  | nil => rfl
  | cons st rest ih =>
    have hsplit : controllerCalls (handleTrackStatuses (st :: rest))
        = controllerCalls (handleTrackStatus st)
          ++ controllerCalls (handleTrackStatuses rest) := by
      simp [controllerCalls, handleTrackStatuses, List.flatMap_cons, List.filterMap_append]
    rw [hsplit, List.count_append, ih]
    cases st
    all_goals simp [controllerCalls, handleTrackStatus, trackStatusCalls, List.count_cons]
    omega

theorem controllerCalls_handleTrackStatuses_cons (st : TrackStatus)
    (rest : List TrackStatus) :
    controllerCalls (handleTrackStatuses (st :: rest))
      = trackStatusCalls st ++ controllerCalls (handleTrackStatuses rest) := by
  cases st <;>
    simp [controllerCalls, handleTrackStatuses, handleTrackStatus, trackStatusCalls,
      List.flatMap_cons, List.filterMap_append]

/-- C16: for `NoTrack` the handler calls `controller.stop()` once and nothing
else on the controller; for `InvalidTrack`, `LoadingTrack`, `LoadedTrack` and
`BufferedTrack` it makes no controller call; so over any sequence of
track-status events the `stop()` calls number the `NoTrack` events and `pause()`
is never called. -/
theorem handleTrackStatus_noTrack_and_silent (statuses : List TrackStatus) :
    controllerCalls (handleTrackStatus TrackStatus.NoTrack) = [ControllerCall.stop]
      ∧ controllerCalls (handleTrackStatus TrackStatus.InvalidTrack) = []
      ∧ controllerCalls (handleTrackStatus TrackStatus.LoadingTrack) = []
      ∧ controllerCalls (handleTrackStatus TrackStatus.LoadedTrack) = []
      ∧ controllerCalls (handleTrackStatus TrackStatus.BufferedTrack) = []
      ∧ (controllerCalls (handleTrackStatuses statuses)).count ControllerCall.stop
          = statuses.count TrackStatus.NoTrack
      ∧ (controllerCalls (handleTrackStatuses statuses)).count ControllerCall.pause = 0 := by
  refine ⟨rfl, rfl, rfl, rfl, rfl, ?_⟩
  induction statuses with
  | nil => exact ⟨rfl, rfl⟩
  | cons st rest ih =>
    rw [controllerCalls_handleTrackStatuses_cons, List.count_append, List.count_append,
      ih.1, ih.2]
    cases st
    all_goals simp [trackStatusCalls, List.count_cons]
    omega

/-- C17: every `PlayState` change queues exactly one engine command: `play()` for
`Playing`, `pause()` for `Paused`, `stop()` for `Stopped`; distinct states queue
distinct commands. -/
theorem playStateChanged_one_command {κ : Type} (state state2 : PlayState) :
    (playStateChanged state : List (EngineCommand κ)).length = 1
      ∧ (playStateChanged PlayState.Playing : List (EngineCommand κ)) = [EngineCommand.play]
      ∧ (playStateChanged PlayState.Paused : List (EngineCommand κ)) = [EngineCommand.pause]
      ∧ (playStateChanged PlayState.Stopped : List (EngineCommand κ)) = [EngineCommand.stop]
      ∧ ((playStateChanged state : List (EngineCommand κ)) = playStateChanged state2
          ↔ state = state2) := by
  refine ⟨?_, rfl, rfl, rfl, ?_⟩
  · cases state <;> rfl
  · cases state <;> cases state2 <;> simp [playStateChanged]

/-- C18: `setup()` with the configured descriptor `s` gives the state and the
signals of `changeOutput(s)`, and these are the state and the signals of the
reconciliation algorithm as section 4.3 of the specification words it. -/
theorem setup_eq_changeOutput {κ : Type} (p : Private κ) (s : QString) :
    setup p s = changeOutput p s ∧ setup p s = reconcileSpec p s := by
  refine ⟨rfl, ?_⟩
  unfold setup
  cases s with
  | nil =>
    by_cases h1 : p.currentOutput.name = []
    · cases hp : p.outputs with
      | nil =>
        rw [changeOutput_nil_of_outputs_nil p hp]
        simp [reconcileSpec, hp]
      | cons first rest =>
        rw [changeOutput_nil_select p first rest hp h1]
        simp [reconcileSpec, hp, h1]
    · rw [changeOutput_nil_of_selected p h1]
      cases hn : p.currentOutput.name with
      | nil => exact absurd hn h1
      | cons c cs =>
        cases hp : p.outputs with
        | nil => simp [reconcileSpec, hp]
        | cons first rest => simp [reconcileSpec, hp, hn]
  | cons c cs =>
    rw [changeOutput_of_ne_nil p (c :: cs) (by simp)]
    unfold applyDescriptor reconcileSpec
    cases hs : (splitParts sep (c :: cs)).2 with
    | nil => simp [split, hs]
    | cons d ds =>
      obtain ⟨outs, ⟨n, dev⟩⟩ := p
      cases outs with
      | nil => simp [split, hs]
      | cons e es =>
        simp only [split, hs]
        by_cases hc : contains (e :: es) (splitParts sep (c :: cs)).1 = true
        · by_cases hn : n = (splitParts sep (c :: cs)).1
          · by_cases hd : dev = d
            · simp [hc, hn, hd]
            · have hd2 : ¬ d = dev := fun e => hd e.symm
              simp [hc, hn, hd, hd2]
          · have hn2 : ¬ (splitParts sep (c :: cs)).1 = n := fun e => hn e.symm
            simp [hc, hn, hn2]
        · simp [hc]

/-! ## Claims on the registry -/

/-- C11: if the registry already contains `output.name`, `addOutput` returns the
state unchanged (so the names and the factory bound to each stay the same);
otherwise the registry becomes the old entries plus the one entry
`name -> creator`, the new name is bound to `creator`, every name bound before
keeps its factory, and the current output is untouched. In both cases a second
`addOutput` with the same name changes nothing. -/
theorem addOutput_idempotent_on_names {κ : Type} (p : Private κ)
    (output other : AudioOutputBuilder κ) :
    (contains p.outputs output.name = true → addOutput p output = p)
      ∧ (contains p.outputs output.name = false →
          (addOutput p output).outputs.Perm ((output.name, output.creator) :: p.outputs)
          ∧ (∃ h, mapAt (addOutput p output).outputs output.name h = output.creator)
          ∧ (∀ k (hk : contains p.outputs k = true),
              ∃ h, mapAt (addOutput p output).outputs k h = mapAt p.outputs k hk)
          ∧ (addOutput p output).currentOutput = p.currentOutput)
      ∧ (other.name = output.name →
          addOutput (addOutput p output) other = addOutput p output) := by
  have hany : ∀ (q : Private κ) (o : AudioOutputBuilder κ),
      contains q.outputs o.name = true → addOutput q o = q := by
    intro q o h
    simp [addOutput, h]
  have hyes := hany p output
  have hno : contains p.outputs output.name = false →
      addOutput p output
        = { p with outputs := emplace p.outputs output.name output.creator } := by
    intro h
    simp [addOutput, h]
  refine ⟨hyes, ?_, ?_⟩
  · intro h
    rw [hno h]
    exact ⟨emplace_perm p.outputs _ _ h, emplace_mapAt_self p.outputs _ _ h,
      fun k hk => emplace_mapAt_other p.outputs _ _ h k hk, rfl⟩
  · intro hname
    have hc : contains (addOutput p output).outputs other.name = true := by
      rw [hname]
      cases h : contains p.outputs output.name with
      | true => rw [hyes h]; exact h
      | false =>
        rw [hno h]
        exact (emplace_mapAt_self p.outputs _ _ h).1
    exact hany (addOutput p output) other hc

/-- Witness for C11: re-registering `alsa` with another factory, and registering
`jack`, in a registry holding `alsa` and `pipewire`. -/
theorem addOutput_idempotent_on_names_witness :
    (contains twoBackends.outputs (QStringLiteral "alsa") = true
      ∧ contains twoBackends.outputs (QStringLiteral "jack") = false)
    ∧ addOutput twoBackends { name := QStringLiteral "alsa", creator := 7 } = twoBackends
    ∧ ((addOutput twoBackends { name := QStringLiteral "jack", creator := 7 }).outputs.Perm
          ((QStringLiteral "jack", 7) :: twoBackends.outputs)
      ∧ (∃ h, mapAt (addOutput twoBackends
            { name := QStringLiteral "jack", creator := 7 }).outputs
            (QStringLiteral "jack") h = 7)
      ∧ (∀ k (hk : contains twoBackends.outputs k = true),
          ∃ h, mapAt (addOutput twoBackends
            { name := QStringLiteral "jack", creator := 7 }).outputs k h
            = mapAt twoBackends.outputs k hk)
      ∧ (addOutput twoBackends { name := QStringLiteral "jack", creator := 7 }).currentOutput
          = twoBackends.currentOutput)
    ∧ addOutput (addOutput twoBackends { name := QStringLiteral "jack", creator := 7 })
          { name := QStringLiteral "jack", creator := 8 }
        = addOutput twoBackends { name := QStringLiteral "jack", creator := 7 } :=
  ⟨by decide,
    (addOutput_idempotent_on_names twoBackends
      { name := QStringLiteral "alsa", creator := 7 }
      { name := QStringLiteral "alsa", creator := 7 }).1 (by decide),
    (addOutput_idempotent_on_names twoBackends
      { name := QStringLiteral "jack", creator := 7 }
      { name := QStringLiteral "jack", creator := 8 }).2.1 (by decide),
    (addOutput_idempotent_on_names twoBackends
      { name := QStringLiteral "jack", creator := 7 }
      { name := QStringLiteral "jack", creator := 8 }).2.2 rfl⟩

/-- C13: `getOutputDevices(name)` returns the empty list when `name` is not
registered and when the factory bound to `name` yields no instance; otherwise it
returns the device list of the instance the factory creates; in every case the
state (registry and current output) is left as it was. -/
theorem getOutputDevices_result {κ ω δ : Type} (create : κ → Option ω)
    (getAllDevices : ω → List δ) (p : Private κ) (name : QString) :
    (contains p.outputs name = false →
        (getOutputDevices create getAllDevices p name).2 = [])
      ∧ (∀ h : contains p.outputs name = true,
          create (mapAt p.outputs name h) = none →
            (getOutputDevices create getAllDevices p name).2 = [])
      ∧ (∀ (h : contains p.outputs name = true) (out : ω),
          create (mapAt p.outputs name h) = some out →
            (getOutputDevices create getAllDevices p name).2 = getAllDevices out)
      ∧ (getOutputDevices create getAllDevices p name).1 = p := by
  refine ⟨?_, ?_, ?_, ?_⟩
  · intro h
    simp [getOutputDevices, h]
  · intro h hc
    simp [getOutputDevices, h, hc]
  · intro h out hc
    simp [getOutputDevices, h, hc]
  · unfold getOutputDevices
    split_ifs with h
    · rfl
    · split <;> rfl

/-- Witness for C13: factories numbered 0 and 1, of which only 0 yields an
instance, listing the devices 10 and 11; `jack` is not registered, `pipewire`
yields no instance, `alsa` lists its two devices. -/
theorem getOutputDevices_result_witness :
    (contains twoBackends.outputs (QStringLiteral "jack") = false
      ∧ (∃ h, (fun c => if c = 0 then some [10, 11] else none : Nat → Option (List Nat))
            (mapAt twoBackends.outputs (QStringLiteral "pipewire") h) = none)
      ∧ (∃ h, (fun c => if c = 0 then some [10, 11] else none : Nat → Option (List Nat))
            (mapAt twoBackends.outputs (QStringLiteral "alsa") h) = some [10, 11]))
    ∧ (getOutputDevices (fun c => if c = 0 then some [10, 11] else none) id
          twoBackends (QStringLiteral "jack")).2 = ([] : List Nat)
    ∧ (getOutputDevices (fun c => if c = 0 then some [10, 11] else none) id
          twoBackends (QStringLiteral "pipewire")).2 = ([] : List Nat)
    ∧ (getOutputDevices (fun c => if c = 0 then some [10, 11] else none) id
          twoBackends (QStringLiteral "alsa")).2 = [10, 11]
    ∧ (getOutputDevices (fun c => if c = 0 then some [10, 11] else none)
          (id : List Nat → List Nat) twoBackends (QStringLiteral "alsa")).1 = twoBackends :=
  ⟨⟨by decide, ⟨by decide, by decide⟩, ⟨by decide, by decide⟩⟩,
    (getOutputDevices_result (fun c => if c = 0 then some [10, 11] else none) id
      twoBackends (QStringLiteral "jack")).1 (by decide),
    (getOutputDevices_result (fun c => if c = 0 then some [10, 11] else none) id
      twoBackends (QStringLiteral "pipewire")).2.1 (by decide) (by decide),
    (getOutputDevices_result (fun c => if c = 0 then some [10, 11] else none) id
      twoBackends (QStringLiteral "alsa")).2.2.1 (by decide) [10, 11] (by decide),
    (getOutputDevices_result (fun c => if c = 0 then some [10, 11] else none) id
      twoBackends (QStringLiteral "alsa")).2.2.2⟩

/-! ## The registry stays in key order -/

theorem mem_keys_emplace {κ : Type} (m : OutputMap κ) (k : QString) (v : κ) (x : QString) :
    x ∈ (emplace m k v).map (fun e => e.1) ↔ x = k ∨ x ∈ m.map (fun e => e.1) := by
  induction m with
  | nil => simp [emplace]
  | cons e rest ih =>
    cases h1 : qLess k e.1 with
    | true => rw [emplace_cons_lt e rest k v h1]; simp
    | false =>
      cases h2 : qLess e.1 k with
      | true =>
        rw [emplace_cons_gt e rest k v h1 h2, List.map_cons, List.mem_cons, ih,
          List.map_cons, List.mem_cons]
        constructor
        · rintro (h | h | h)
          · exact Or.inr (Or.inl h)
          · exact Or.inl h
          · exact Or.inr (Or.inr h)
        · rintro (h | h | h)
          · exact Or.inr (Or.inl h)
          · exact Or.inl h
          · exact Or.inr (Or.inr h)
      | false =>
        rw [emplace_cons_eq e rest k v h1 h2, List.map_cons, List.mem_cons]
        have hk : e.1 = k := qLess_total e.1 k h2 h1
        constructor
        · exact fun h => Or.inr h
        · rintro (h | h)
          · exact Or.inl (h.trans hk.symm)
          · exact h

theorem emplace_sorted {κ : Type} (m : OutputMap κ) (k : QString) (v : κ)
    (h : (m.map (fun e => e.1)).Pairwise (fun a b => qLess a b = true)) :
    ((emplace m k v).map (fun e => e.1)).Pairwise (fun a b => qLess a b = true) := by
  induction m with
  | nil => simp [emplace]
  | cons e rest ih =>
    rw [List.map_cons, List.pairwise_cons] at h
    cases h1 : qLess k e.1 with
    | true =>
      rw [emplace_cons_lt e rest k v h1, List.map_cons, List.map_cons, List.pairwise_cons,
        List.pairwise_cons]
      refine ⟨?_, h.1, h.2⟩
      intro x hx
      rcases List.mem_cons.1 hx with hx | hx
      · rw [hx]; exact h1
      · exact qLess_trans k e.1 x h1 (h.1 x hx)
    | false =>
      cases h2 : qLess e.1 k with
      | true =>
        rw [emplace_cons_gt e rest k v h1 h2, List.map_cons, List.pairwise_cons]
        refine ⟨?_, ih h.2⟩
        intro x hx
        rcases (mem_keys_emplace rest k v x).1 hx with hx | hx
        · rw [hx]; exact h2
        · exact h.1 x hx
      | false =>
        rw [emplace_cons_eq e rest k v h1 h2, List.map_cons, List.pairwise_cons]
        exact h

theorem addOutput_sorted {κ : Type} (p : Private κ) (output : AudioOutputBuilder κ)
    (h : (getAllOutputs p).Pairwise (fun a b => qLess a b = true)) :
    (getAllOutputs (addOutput p output)).Pairwise (fun a b => qLess a b = true) := by
  unfold addOutput
  split_ifs
  · exact h
  · exact emplace_sorted p.outputs _ _ h

theorem mem_getAllOutputs_addOutput {κ : Type} (p : Private κ)
    (output : AudioOutputBuilder κ) (x : QString) :
    x ∈ getAllOutputs (addOutput p output) ↔ x = output.name ∨ x ∈ getAllOutputs p := by
  unfold addOutput
  split_ifs with hc
  · constructor
    · exact fun h => Or.inr h
    · rintro (h | h)
      · rw [h]; exact (contains_iff_mem_keys p.outputs output.name).1 hc
      · exact h
  · exact mem_keys_emplace p.outputs _ _ x

theorem foldl_addOutput_sorted {κ : Type} (builders : List (AudioOutputBuilder κ))
    (p : Private κ) (h : (getAllOutputs p).Pairwise (fun a b => qLess a b = true)) :
    (getAllOutputs (builders.foldl addOutput p)).Pairwise (fun a b => qLess a b = true) := by
  induction builders generalizing p with
  | nil => exact h
  | cons b bs ih => exact ih (addOutput p b) (addOutput_sorted p b h)

theorem mem_getAllOutputs_foldl {κ : Type} (builders : List (AudioOutputBuilder κ))
    (p : Private κ) (x : QString) :
    x ∈ getAllOutputs (builders.foldl addOutput p)
      ↔ x ∈ builders.map (fun b => b.name) ∨ x ∈ getAllOutputs p := by
  induction builders generalizing p with
  | nil => simp
  | cons b bs ih =>
    rw [List.foldl_cons, ih (addOutput p b), mem_getAllOutputs_addOutput, List.map_cons,
      List.mem_cons]
    constructor
    · rintro (h | h | h)
      · exact Or.inl (Or.inr h)
      · exact Or.inl (Or.inl h)
      · exact Or.inr h
    · rintro ((h | h) | h)
      · exact Or.inr (Or.inl h)
      · exact Or.inl h
      · exact Or.inr (Or.inr h)

theorem registerAll_sorted {κ : Type} (builders : List (AudioOutputBuilder κ)) :
    (getAllOutputs (registerAll builders)).Pairwise (fun a b => qLess a b = true) :=
  foldl_addOutput_sorted builders (Private.init κ) (by simp [getAllOutputs, Private.init])

theorem mem_getAllOutputs_registerAll {κ : Type} (builders : List (AudioOutputBuilder κ))
    (x : QString) :
    x ∈ getAllOutputs (registerAll builders) ↔ x ∈ builders.map (fun b => b.name) := by
  unfold registerAll
  rw [mem_getAllOutputs_foldl]
  simp [getAllOutputs, Private.init]

theorem registerAll_nodup {κ : Type} (builders : List (AudioOutputBuilder κ)) :
    (getAllOutputs (registerAll builders)).Nodup := by
  refine (registerAll_sorted builders).imp ?_
  intro a b hab e
  rw [e, qLess_irrefl] at hab
  exact Bool.noConfusion hab

theorem count_eq_one_of_nodup (l : List QString) (n : QString) (hd : l.Nodup)
    (hm : n ∈ l) : l.count n = 1 := by
  induction l with
  | nil => cases hm
  | cons x xs ih =>
    rw [List.nodup_cons] at hd
    rw [List.count_cons]
    rcases List.mem_cons.1 hm with h | h
    · subst h
      rw [List.count_eq_zero_of_not_mem hd.1]
      simp
    · have hx : x ≠ n := fun e => hd.1 (e ▸ h)
      rw [ih hd.2 h]
      simp [hx]

/-- C12: after any sequence of `addOutput` calls, `getAllOutputs()` holds every
registered name exactly once and no other string; and two sequences that
register the same names, in whatever order, give the same list. -/
theorem getAllOutputs_registered_names {κ : Type}
    (builders builders2 : List (AudioOutputBuilder κ)) :
    (∀ n, (getAllOutputs (registerAll builders)).count n
        = if n ∈ builders.map (fun b => b.name) then 1 else 0)
      ∧ ((∀ n, n ∈ builders.map (fun b => b.name) ↔ n ∈ builders2.map (fun b => b.name))
          → getAllOutputs (registerAll builders2) = getAllOutputs (registerAll builders)) := by
  constructor
  · intro n
    split_ifs with h
    · exact count_eq_one_of_nodup _ n (registerAll_nodup builders)
        ((mem_getAllOutputs_registerAll builders n).2 h)
    · exact List.count_eq_zero_of_not_mem
        (fun hn => h ((mem_getAllOutputs_registerAll builders n).1 hn))
  · intro hsame
    haveI : IsAntisymm QString (fun a b => qLess a b = true) :=
      ⟨fun a b hab hba => by
        rw [qLess_asymm a b hab] at hba
        exact Bool.noConfusion hba⟩
    apply List.eq_of_perm_of_sorted _ (registerAll_sorted builders2)
      (registerAll_sorted builders)
    rw [List.perm_ext_iff_of_nodup (registerAll_nodup builders2) (registerAll_nodup builders)]
    intro n
    rw [mem_getAllOutputs_registerAll, mem_getAllOutputs_registerAll]
    exact (hsame n).symm

/-- Witness for C12: `pipewire` then `alsa`, against `alsa`, `pipewire`, `alsa`. -/
theorem getAllOutputs_registered_names_witness :
    (∀ n, n ∈ ([{ name := QStringLiteral "pipewire", creator := 1 },
                { name := QStringLiteral "alsa", creator := 0 }]
                : List (AudioOutputBuilder Nat)).map (fun b => b.name)
        ↔ n ∈ ([{ name := QStringLiteral "alsa", creator := 0 },
                { name := QStringLiteral "pipewire", creator := 1 },
                { name := QStringLiteral "alsa", creator := 2 }]
                : List (AudioOutputBuilder Nat)).map (fun b => b.name))
    ∧ getAllOutputs (registerAll
          ([{ name := QStringLiteral "alsa", creator := 0 },
            { name := QStringLiteral "pipewire", creator := 1 },
            { name := QStringLiteral "alsa", creator := 2 }] : List (AudioOutputBuilder Nat)))
        = getAllOutputs (registerAll
          ([{ name := QStringLiteral "pipewire", creator := 1 },
            { name := QStringLiteral "alsa", creator := 0 }] : List (AudioOutputBuilder Nat)))
    ∧ (getAllOutputs (registerAll
          ([{ name := QStringLiteral "pipewire", creator := 1 },
            { name := QStringLiteral "alsa", creator := 0 }]
            : List (AudioOutputBuilder Nat)))).count (QStringLiteral "alsa") = 1 :=
  have hsame : ∀ n, n ∈ ([{ name := QStringLiteral "pipewire", creator := 1 },
                { name := QStringLiteral "alsa", creator := 0 }]
                : List (AudioOutputBuilder Nat)).map (fun b => b.name)
        ↔ n ∈ ([{ name := QStringLiteral "alsa", creator := 0 },
                { name := QStringLiteral "pipewire", creator := 1 },
                { name := QStringLiteral "alsa", creator := 2 }]
                : List (AudioOutputBuilder Nat)).map (fun b => b.name) := by
    intro n
    simp only [List.map_cons, List.map_nil, List.mem_cons, List.mem_singleton]
    constructor
    · rintro (h | h | h)
      · exact Or.inr (Or.inl h)
      · exact Or.inl h
      · exact absurd h (List.not_mem_nil n)
    · rintro (h | h | h | h)
      · exact Or.inr (Or.inl h)
      · exact Or.inl h
      · exact Or.inr (Or.inl h)
      · exact absurd h (List.not_mem_nil n)
  ⟨hsame,
    (getAllOutputs_registered_names _ _).2 hsame,
    by
      rw [(getAllOutputs_registered_names
        ([{ name := QStringLiteral "pipewire", creator := 1 },
          { name := QStringLiteral "alsa", creator := 0 }] : List (AudioOutputBuilder Nat))
        []).1 (QStringLiteral "alsa")]
      decide⟩

/-! ## Claims on the engine commands of `changeOutput` -/

/-- C20 (as amended): for every call `changeOutput("A|d")` where `A` is the
currently selected backend and is registered, `A` and `d` hold no `|`, and `d`
differs from the current device, the call emits `deviceChanged(d)` only and the
coordinator issues exactly one `setOutputDevice(d)` and no `setAudioOutput`. -/
theorem changeOutput_device_only_no_swap {κ : Type} (p : Private κ) (A d : QString)
    (hcur : p.currentOutput.name = A) (hreg : contains p.outputs A = true)
    (hA : sep ∉ A) (hd : sep ∉ d) (hne : d ≠ p.currentOutput.device) :
    (changeOutput p (descriptor A d)).2 = [Signal.deviceChanged d]
      ∧ changeOutputCommands p (descriptor A d) = [EngineCommand.setOutputDevice d] := by
  have hne2 : p.currentOutput.device ≠ d := fun e => hne e.symm
  have h : changeOutput p (descriptor A d)
      = ({ p with currentOutput := { p.currentOutput with device := d } },
          [Signal.deviceChanged d]) := by
    rw [changeOutput_registered p A d hA hreg, firstField_of_not_mem d hd]
    simp [hcur, hne2]
  unfold changeOutputCommands
  rw [h]
  simp [signalCommands]

/-- Witness for C20: `alsa|hw:0` is selected and `alsa|hw:1` is applied. -/
theorem changeOutput_device_only_no_swap_witness :
    (alsaSelected.currentOutput.name = QStringLiteral "alsa"
      ∧ contains alsaSelected.outputs (QStringLiteral "alsa") = true
      ∧ sep ∉ QStringLiteral "alsa" ∧ sep ∉ QStringLiteral "hw:1"
      ∧ QStringLiteral "hw:1" ≠ alsaSelected.currentOutput.device)
    ∧ ((changeOutput alsaSelected
          (descriptor (QStringLiteral "alsa") (QStringLiteral "hw:1"))).2
        = [Signal.deviceChanged (QStringLiteral "hw:1")]
      ∧ changeOutputCommands alsaSelected
          (descriptor (QStringLiteral "alsa") (QStringLiteral "hw:1"))
        = [EngineCommand.setOutputDevice (QStringLiteral "hw:1")]) :=
  ⟨by decide,
    changeOutput_device_only_no_swap alsaSelected (QStringLiteral "alsa")
      (QStringLiteral "hw:1") (by decide) (by decide) (by decide) (by decide) (by decide)⟩

/-- C20 as stated fails: when the only backend is named `a|b` and was selected by
the empty setting, `changeOutput("a|b|hw:1")` queues no engine command although
`hw:1` differs from the current device `default`; and with `alsa|hw:0` selected,
`changeOutput("alsa|hw:0|x")` queues no engine command although `hw:0|x`
differs from the current device `hw:0`. -/
theorem changeOutput_device_only_counterexample :
    (pipeNamedSelected.currentOutput
        = { name := QStringLiteral "a|b", device := QStringLiteral "default" }
      ∧ contains pipeNamedSelected.outputs (QStringLiteral "a|b") = true
      ∧ QStringLiteral "hw:1" ≠ pipeNamedSelected.currentOutput.device
      ∧ changeOutputCommands pipeNamedSelected
          (descriptor (QStringLiteral "a|b") (QStringLiteral "hw:1")) = [])
    ∧ (alsaSelected.currentOutput
        = { name := QStringLiteral "alsa", device := QStringLiteral "hw:0" }
      ∧ contains alsaSelected.outputs (QStringLiteral "alsa") = true
      ∧ QStringLiteral "hw:0|x" ≠ alsaSelected.currentOutput.device
      ∧ changeOutputCommands alsaSelected
          (descriptor (QStringLiteral "alsa") (QStringLiteral "hw:0|x")) = []) := by
  decide

theorem changeOutputCommands_pair {κ : Type} (p : Private κ) (output n d : QString)
    (cur : CurrentOutput) (hreg : contains p.outputs n = true)
    (h : changeOutput p output
      = ({ p with currentOutput := cur },
          [Signal.outputChanged n, Signal.deviceChanged d])) :
    changeOutputCommands p output
      = [EngineCommand.setAudioOutput (mapAt p.outputs n hreg),
          EngineCommand.setOutputDevice d] := by
  unfold changeOutputCommands
  rw [h]
  simp [signalCommands, outputChangedSlot, hreg]

/-- C21: whenever a call of `changeOutput` emits `outputChanged(n)`, the name `n`
is a key of the registry, the emissions of the call are exactly
`outputChanged(n)` followed by one `deviceChanged(d)`, the lookup of the
`outputChanged` slot succeeds, and the engine is sent `setAudioOutput` with the
factory registered under `n` followed by `setOutputDevice(d)`. -/
theorem outputChanged_name_registered {κ : Type} (p : Private κ) (output n : QString)
    (hmem : Signal.outputChanged n ∈ (changeOutput p output).2) :
    ∃ (h : contains p.outputs n = true) (d : QString),
      (changeOutput p output).2 = [Signal.outputChanged n, Signal.deviceChanged d]
        ∧ (changeOutput p output).1.outputs = p.outputs
        ∧ outputChangedSlot (changeOutput p output).1 n
            = [EngineCommand.setAudioOutput (mapAt p.outputs n h)]
        ∧ changeOutputCommands p output
            = [EngineCommand.setAudioOutput (mapAt p.outputs n h),
                EngineCommand.setOutputDevice d] := by
  have key : ∀ (m d : QString) (cur : CurrentOutput),
      contains p.outputs m = true →
      changeOutput p output
        = ({ p with currentOutput := cur },
            [Signal.outputChanged m, Signal.deviceChanged d]) →
      Signal.outputChanged n ∈ (changeOutput p output).2 →
      ∃ (h : contains p.outputs n = true) (d : QString),
        (changeOutput p output).2 = [Signal.outputChanged n, Signal.deviceChanged d]
          ∧ (changeOutput p output).1.outputs = p.outputs
          ∧ outputChangedSlot (changeOutput p output).1 n
              = [EngineCommand.setAudioOutput (mapAt p.outputs n h)]
          ∧ changeOutputCommands p output
              = [EngineCommand.setAudioOutput (mapAt p.outputs n h),
                  EngineCommand.setOutputDevice d] := by
    intro m d cur hreg h hm
    have hnm : n = m := by
      rw [h] at hm
      simpa using hm
    subst hnm
    refine ⟨hreg, d, ?_, ?_, ?_, changeOutputCommands_pair p output n d cur hreg h⟩
    · rw [h]
    · rw [h]
    · rw [h]
      simp [outputChangedSlot, hreg]
  by_cases h0 : output = []
  · subst h0
    by_cases h1 : p.currentOutput.name = []
    · by_cases hp : p.outputs = []
      · rw [changeOutput_nil_of_outputs_nil p hp] at hmem
        simp at hmem
      · obtain ⟨first, rest, hp2⟩ := List.exists_cons_of_ne_nil hp
        have hreg : contains p.outputs first.1 = true := by simp [hp2, contains]
        exact key first.1 _ _ hreg (changeOutput_nil_select p first rest hp2 h1) hmem
    · rw [changeOutput_nil_of_selected p h1] at hmem
      simp at hmem
  · have hc := changeOutput_of_ne_nil p output h0
    rcases applyDescriptor_cases p output with h1 | ⟨m, d, _, hreg, h1⟩ | ⟨d, _, h1⟩
    · rw [hc, h1] at hmem
      simp at hmem
    · exact key m d _ hreg (hc.trans h1) hmem
    · rw [hc, h1] at hmem
      simp at hmem

/-- Witness for C21: `alsa|hw:0` applied to a two-backend registry with nothing
selected; the factory registered under `alsa` is number 0. -/
theorem outputChanged_name_registered_witness :
    Signal.outputChanged (QStringLiteral "alsa")
        ∈ (changeOutput twoBackends
            (descriptor (QStringLiteral "alsa") (QStringLiteral "hw:0"))).2
    ∧ (∃ (h : contains twoBackends.outputs (QStringLiteral "alsa") = true) (d : QString),
      (changeOutput twoBackends
          (descriptor (QStringLiteral "alsa") (QStringLiteral "hw:0"))).2
          = [Signal.outputChanged (QStringLiteral "alsa"), Signal.deviceChanged d]
        ∧ (changeOutput twoBackends
            (descriptor (QStringLiteral "alsa") (QStringLiteral "hw:0"))).1.outputs
            = twoBackends.outputs
        ∧ outputChangedSlot (changeOutput twoBackends
            (descriptor (QStringLiteral "alsa") (QStringLiteral "hw:0"))).1
            (QStringLiteral "alsa")
            = [EngineCommand.setAudioOutput
                (mapAt twoBackends.outputs (QStringLiteral "alsa") h)]
        ∧ changeOutputCommands twoBackends
            (descriptor (QStringLiteral "alsa") (QStringLiteral "hw:0"))
            = [EngineCommand.setAudioOutput
                (mapAt twoBackends.outputs (QStringLiteral "alsa") h),
                EngineCommand.setOutputDevice d])
    ∧ changeOutputCommands twoBackends
        (descriptor (QStringLiteral "alsa") (QStringLiteral "hw:0"))
        = [EngineCommand.setAudioOutput 0,
            EngineCommand.setOutputDevice (QStringLiteral "hw:0")] :=
  ⟨by decide,
    outputChanged_name_registered twoBackends
      (descriptor (QStringLiteral "alsa") (QStringLiteral "hw:0"))
      (QStringLiteral "alsa") (by decide),
    by decide⟩

/-- C22: for each of the six statuses `handleTrackStatus` emits
`trackStatusChanged` once, with the status received, as its last effect, after
the controller calls of the switch; over any sequence of status events the
statuses re-emitted are the statuses received, in order. -/
theorem handleTrackStatus_reemits (status : TrackStatus) (statuses : List TrackStatus) :
    emittedStatuses (handleTrackStatus status) = [status]
      ∧ (∃ calls : List ControllerCall,
          handleTrackStatus status
            = calls.map TrackEffect.controller ++ [TrackEffect.trackStatusChanged status])
      ∧ (handleTrackStatus status).getLast? = some (TrackEffect.trackStatusChanged status)
      ∧ emittedStatuses (handleTrackStatuses statuses) = statuses := by
  refine ⟨?_, ⟨trackStatusCalls status, rfl⟩, ?_, ?_⟩
  · cases status <;> rfl
  · cases status <;> rfl
  · induction statuses with
    | nil => rfl
    | cons st rest ih =>
      have hsplit : emittedStatuses (handleTrackStatuses (st :: rest))
          = emittedStatuses (handleTrackStatus st)
            ++ emittedStatuses (handleTrackStatuses rest) := by
        simp [emittedStatuses, handleTrackStatuses, List.flatMap_cons, List.filterMap_append]
      rw [hsplit, ih]
      cases st <;> rfl

/-! ## Descriptors with more than two fields -/

theorem split_append_cons (c : QChar) (a b : QString) :
    split c (a ++ c :: b) = split c a ++ split c b := by
  induction a with
  | nil => simp [split, splitParts]
  | cons x xs ih =>
    by_cases hx : x = c
    · have h1 : split c (x :: (xs ++ c :: b)) = [] :: split c (xs ++ c :: b) := by
        simp [split, splitParts, hx]
      have h2 : split c (x :: xs) = [] :: split c xs := by
        simp [split, splitParts, hx]
      rw [List.cons_append, h1, h2, ih, List.cons_append]
    · have h1 : split c (x :: (xs ++ c :: b))
          = (x :: (splitParts c (xs ++ c :: b)).1) :: (splitParts c (xs ++ c :: b)).2 := by
        simp [split, splitParts, hx]
      have h2 : split c (x :: xs)
          = (x :: (splitParts c xs).1) :: (splitParts c xs).2 := by
        simp [split, splitParts, hx]
      have h3 : (splitParts c (xs ++ c :: b)).1 :: (splitParts c (xs ++ c :: b)).2
          = ((splitParts c xs).1 :: (splitParts c xs).2) ++ split c b := ih
      rw [List.cons_append] at h3
      rw [List.cons_append, h1, h2, List.cons_append]
      injection h3 with h4 h5
      rw [h4, h5]

/-- The descriptor code reads the split list through its length test and its
first two entries only. -/
theorem applyDescriptor_of_fields {κ : Type} (p : Private κ) (output : QString)
    (n d : QString) (rest : List QString) (h : split sep output = n :: d :: rest) :
    applyDescriptor p output
      = (if p.outputs.isEmpty then (p, [])
        else if !contains p.outputs n then (p, [])
        else if p.currentOutput.name != n then
          ({ p with currentOutput := { name := n, device := d } },
            [Signal.outputChanged n, Signal.deviceChanged d])
        else if p.currentOutput.device != d then
          ({ p with currentOutput := { p.currentOutput with device := d } },
            [Signal.deviceChanged d])
        else (p, [])) := by
  have hlen : ¬ (rest.length + 1 + 1 < 2) := by omega
  unfold applyDescriptor
  simp only [h]
  simp [hlen]

theorem applyDescriptor_congr {κ : Type} (p : Private κ) (o1 o2 : QString)
    (n d : QString) (rest1 rest2 : List QString)
    (h1 : split sep o1 = n :: d :: rest1) (h2 : split sep o2 = n :: d :: rest2) :
    applyDescriptor p o1 = applyDescriptor p o2 := by
  rw [applyDescriptor_of_fields p o1 n d rest1 h1, applyDescriptor_of_fields p o2 n d rest2 h2]

/-- C24: for every state and all strings `A`, `d`, `r` (so in particular for a
registered backend name `A` and a device `d` without `|`),
`changeOutput("A|d|r")` gives the same state and the same signals as
`changeOutput("A|d")`. -/
theorem changeOutput_ignores_extra_fields {κ : Type} (p : Private κ) (A d r : QString) :
    changeOutput p (descriptor A (descriptor d r)) = changeOutput p (descriptor A d) := by
  rw [changeOutput_of_ne_nil p _ (descriptor_ne_nil A (descriptor d r)),
    changeOutput_of_ne_nil p _ (descriptor_ne_nil A d)]
  have hA : split sep A = (splitParts sep A).1 :: (splitParts sep A).2 := rfl
  have hd : split sep d = (splitParts sep d).1 :: (splitParts sep d).2 := rfl
  have h1 : split sep (descriptor A (descriptor d r))
      = (splitParts sep A).1 :: ((splitParts sep A).2
          ++ (splitParts sep d).1 :: ((splitParts sep d).2 ++ split sep r)) := by
    unfold descriptor
    rw [split_append_cons, split_append_cons, hA, hd]
    simp
  have h2 : split sep (descriptor A d)
      = (splitParts sep A).1 :: ((splitParts sep A).2
          ++ (splitParts sep d).1 :: (splitParts sep d).2) := by
    unfold descriptor
    rw [split_append_cons, hA, hd]
    simp
  cases hs : (splitParts sep A).2 with
  | nil =>
    rw [hs, List.nil_append] at h1 h2
    exact applyDescriptor_congr p _ _ _ _ _ _ h1 h2
  | cons a1 as =>
    rw [hs, List.cons_append] at h1 h2
    exact applyDescriptor_congr p _ _ _ _ _ _ h1 h2

/-! ## Claims on the context override of `ActionManager` -/

theorem updateFocusWidget_keeps_override (env : WidgetContexts) (focus : FocusState)
    (s : ActionManagerPrivate) :
    (updateFocusWidget env focus s).1.contextOverride = s.contextOverride
      ∧ (updateFocusWidget env focus s).1.widgetOverride = s.widgetOverride := by
  unfold updateFocusWidget updateContextObject setContext
  simp only
  split_ifs <;> exact ⟨rfl, rfl⟩

theorem overrideContext_release (env : WidgetContexts) (focus : FocusState)
    (s : ActionManagerPrivate) (c1 : Nat) (hheld : s.widgetOverride = some c1) :
    overrideContext env focus s (some c1) false
      = updateFocusWidget env focus
          { s with
            contextOverride := false
            widgetOverride := none
            activeContext := []
            currentContext := [] } := by
  simp [overrideContext, hheld]

/-- C23: while an override held by the context `c1` is active,
`overrideContext(c2, true)` changes nothing for any `c2`,
`overrideContext(c2, false)` changes nothing for any `c2` other than `c1`, a
focus update changes nothing (so the active context stays), and
`overrideContext(c1, false)` clears the override. -/
theorem overrideContext_single_override (env : WidgetContexts) (focus : FocusState)
    (s : ActionManagerPrivate) (c1 : Nat)
    (hover : s.contextOverride = true) (hheld : s.widgetOverride = some c1) :
    (∀ c2 : Option Nat, overrideContext env focus s c2 true = (s, []))
      ∧ (∀ c2 : Option Nat, c2 ≠ some c1 → overrideContext env focus s c2 false = (s, []))
      ∧ updateFocusWidget env focus s = (s, [])
      ∧ (updateFocusWidget env focus s).1.activeContext = s.activeContext
      ∧ (overrideContext env focus s (some c1) false).1.contextOverride = false
      ∧ (overrideContext env focus s (some c1) false).1.widgetOverride = none := by
  have hfocus : updateFocusWidget env focus s = (s, []) := by
    unfold updateFocusWidget
    simp [hover]
  refine ⟨?_, ?_, hfocus, by rw [hfocus], ?_, ?_⟩
  · intro c2
    cases c2 with
    | none => rfl
    | some c => simp [overrideContext, hover]
  · intro c2 hne
    cases c2 with
    | none => rfl
    | some c =>
      have hc : ¬ some c = s.widgetOverride := by
        rw [hheld]
        exact hne
      simp [overrideContext, hc]
  · rw [overrideContext_release env focus s c1 hheld]
    exact (updateFocusWidget_keeps_override env focus _).1
  · rw [overrideContext_release env focus s c1 hheld]
    exact (updateFocusWidget_keeps_override env focus _).2

/-- Witness for C23: the override is held by context 1. -/
theorem overrideContext_single_override_witness :
    (overriddenByOne.contextOverride = true ∧ overriddenByOne.widgetOverride = some 1)
    ∧ ((∀ c2 : Option Nat,
          overrideContext exampleContexts exampleFocus overriddenByOne c2 true
            = (overriddenByOne, []))
      ∧ (∀ c2 : Option Nat, c2 ≠ some 1 →
          overrideContext exampleContexts exampleFocus overriddenByOne c2 false
            = (overriddenByOne, []))
      ∧ updateFocusWidget exampleContexts exampleFocus overriddenByOne = (overriddenByOne, [])
      ∧ (updateFocusWidget exampleContexts exampleFocus overriddenByOne).1.activeContext
          = overriddenByOne.activeContext
      ∧ (overrideContext exampleContexts exampleFocus overriddenByOne
          (some 1) false).1.contextOverride = false
      ∧ (overrideContext exampleContexts exampleFocus overriddenByOne
          (some 1) false).1.widgetOverride = none) :=
  ⟨by decide,
    overrideContext_single_override exampleContexts exampleFocus overriddenByOne 1
      (by decide) (by decide)⟩

/-! ## Claims on `msToString` -/

set_option maxRecDepth 100000 in
theorem argPadded_two_digits : ∀ n, n < 100 → argPadded n 2 48 = twoDigits n := by
  decide

/-- C25: for `ms < 3600000`, `msToString(ms)` is the two-digit zero-padded value
of `(ms mod 60000) div 1000`, preceded by the two-digit zero-padded value of
`ms div 60000` and a `:` exactly when `ms >= 60000`; the division by 1000
truncates. -/
theorem msToString_below_hour (ms : Nat) (h : ms < 3600000) :
    msToString ms
      = (if 60000 ≤ ms then twoDigits (ms / 60000) ++ QStringLiteral ":" else [])
        ++ twoDigits (ms % 60000 / 1000) := by
  have hw : ms / 604800000 = 0 := Nat.div_eq_of_lt (by omega)
  have hmw : ms % 604800000 = ms := Nat.mod_eq_of_lt (by omega)
  have hmd : ms % 86400000 = ms := Nat.mod_eq_of_lt (by omega)
  have hmh : ms % 3600000 = ms := Nat.mod_eq_of_lt h
  have hd : ms / 86400000 = 0 := Nat.div_eq_of_lt (by omega)
  have hh : ms / 3600000 = 0 := Nat.div_eq_of_lt h
  have hmin : ms / 60000 < 100 := by omega
  have hsec : ms % 60000 / 1000 < 100 := by omega
  have hpos : (0 < ms / 60000) ↔ 60000 ≤ ms := by omega
  unfold msToString
  simp only [Nat.reduceMul, hw, hmw, hmd, hmh, hd, hh, gt_iff_lt, Nat.lt_irrefl, if_false,
    Bool.or_false, decide_eq_true_eq, hpos, argPadded_two_digits _ hmin,
    argPadded_two_digits _ hsec, List.nil_append]
  by_cases hm : 60000 ≤ ms
  · simp [hm]
  · simp [hm]

/-- Witness for C25: 754999 ms is shown as `12:34`, 59999 ms as `59`. -/
theorem msToString_below_hour_witness :
    (754999 < 3600000 ∧ 59999 < 3600000)
    ∧ msToString 754999
      = (if 60000 ≤ 754999 then twoDigits (754999 / 60000) ++ QStringLiteral ":" else [])
        ++ twoDigits (754999 % 60000 / 1000)
    ∧ msToString 754999 = QStringLiteral "12:34"
    ∧ msToString 59999 = QStringLiteral "59" :=
  ⟨by decide, msToString_below_hour 754999 (by decide), by decide, by decide⟩

/-! ## Claims on `capitalise` -/

theorem splitParts_no_sep (c : QChar) (s : List Nat) :
    c ∉ (splitParts c s).1 ∧ ∀ part ∈ (splitParts c s).2, c ∉ part := by
  induction s with
  | nil => simp [splitParts]
  | cons x xs ih =>
    by_cases hx : x = c
    · simp only [splitParts, hx, if_true]
      refine ⟨by simp, ?_⟩
      intro part hp
      rcases List.mem_cons.1 hp with h | h
      · rw [h]; exact ih.1
      · exact ih.2 part h
    · simp only [splitParts, hx, if_false]
      refine ⟨?_, ih.2⟩
      intro hmem
      rcases List.mem_cons.1 hmem with h | h
      · exact hx h.symm
      · exact ih.1 h

theorem mem_splitSkipEmpty (c : QChar) (s : QString) (part : QString)
    (h : part ∈ splitSkipEmpty c s) : part ≠ [] ∧ c ∉ part := by
  unfold splitSkipEmpty at h
  rw [List.mem_filter] at h
  refine ⟨?_, ?_⟩
  · intro e
    rw [e] at h
    simp at h
  · have hs := splitParts_no_sep c s
    rcases List.mem_cons.1 h.1 with h1 | h1
    · rw [h1]; exact hs.1
    · exact hs.2 part h1

theorem capitaliseParts_of_nonempty (toUpper : QChar → QChar) (parts : List QString)
    (h : ∀ part ∈ parts, part ≠ []) :
    capitaliseParts toUpper parts = some (parts.map (capitalisePart toUpper)) := by
  induction parts with
  | nil => rfl
  | cons part rest ih =>
    have hrest : ∀ q ∈ rest, q ≠ [] := fun q hq => h q (List.mem_cons_of_mem _ hq)
    cases part with
    | nil => exact absurd rfl (h [] (List.mem_cons_self _ _))
    | cons x xs => simp [capitaliseParts, ih hrest, capitalisePart]

theorem split_join (c : QChar) (parts : List QString) (hne : parts ≠ [])
    (h : ∀ part ∈ parts, c ∉ part) : split c (join [c] parts) = parts := by
  induction parts with
  | nil => exact absurd rfl hne
  | cons part rest ih =>
    have hpart : c ∉ part := h part (List.mem_cons_self _ _)
    cases rest with
    | nil => simp [join, split, splitParts_of_not_mem c part hpart]
    | cons next more =>
      have hrest : ∀ q ∈ next :: more, c ∉ q := fun q hq => h q (List.mem_cons_of_mem _ hq)
      have hj : join [c] (part :: next :: more) = part ++ c :: join [c] (next :: more) := by
        simp [join]
      rw [hj, split_append_cons, ih (by simp) hrest]
      simp [split, splitParts_of_not_mem c part hpart]

theorem splitSkipEmpty_join (c : QChar) (parts : List QString)
    (h : ∀ part ∈ parts, part ≠ [] ∧ c ∉ part) :
    splitSkipEmpty c (join [c] parts) = parts := by
  cases parts with
  | nil => simp [splitSkipEmpty, join, split, splitParts]
  | cons part rest =>
    unfold splitSkipEmpty
    rw [split_join c (part :: rest) (by simp) (fun q hq => (h q hq).2)]
    rw [List.filter_eq_self]
    intro q hq
    have := (h q hq).1
    cases q with
    | nil => exact absurd rfl this
    | cons x xs => rfl

theorem capitalisePart_props (toUpper : QChar → QChar)
    (hidem : ∀ c, toUpper (toUpper c) = toUpper c)
    (hspace : ∀ c, c ≠ 32 → toUpper c ≠ 32)
    (part : QString) (h : part ≠ [] ∧ (32 : QChar) ∉ part) :
    (capitalisePart toUpper part ≠ [] ∧ (32 : QChar) ∉ capitalisePart toUpper part)
      ∧ capitalisePart toUpper (capitalisePart toUpper part) = capitalisePart toUpper part := by
  cases part with
  | nil => exact absurd rfl h.1
  | cons x xs =>
    have hx : x ≠ 32 := fun e => h.2 (by simp [e])
    have hxs : (32 : QChar) ∉ xs := fun e => h.2 (List.mem_cons_of_mem _ e)
    refine ⟨⟨by simp [capitalisePart], ?_⟩, by simp [capitalisePart, hidem]⟩
    intro hmem
    simp only [capitalisePart] at hmem
    rcases List.mem_cons.1 hmem with e | e
    · exact hspace x hx e.symm
    · exact hxs e

/-- C30: `capitalise` returns for every string, the first-character access being
in range on every part, and applying it to its own result gives that result
again. `QChar::toUpper` is a parameter, taken to be idempotent and never to
turn a character into a space. -/
theorem capitalise_total_idempotent (toUpper : QChar → QChar)
    (hidem : ∀ c, toUpper (toUpper c) = toUpper c)
    (hspace : ∀ c, c ≠ 32 → toUpper c ≠ 32) (s : QString) :
    ∃ r, capitalise toUpper s = some r ∧ capitalise toUpper r = some r := by
  have hparts := mem_splitSkipEmpty 32 s
  have h1 : capitalise toUpper s
      = some (join [32] ((splitSkipEmpty 32 s).map (capitalisePart toUpper))) := by
    unfold capitalise
    rw [capitaliseParts_of_nonempty toUpper _ (fun q hq => (hparts q hq).1)]
    rfl
  have hcap : ∀ q ∈ (splitSkipEmpty 32 s).map (capitalisePart toUpper),
      q ≠ [] ∧ (32 : QChar) ∉ q := by
    intro q hq
    obtain ⟨q0, hq0, rfl⟩ := List.mem_map.1 hq
    exact (capitalisePart_props toUpper hidem hspace q0 (hparts q0 hq0)).1
  refine ⟨_, h1, ?_⟩
  unfold capitalise
  rw [splitSkipEmpty_join 32 _ hcap,
    capitaliseParts_of_nonempty toUpper _ (fun q hq => (hcap q hq).1), List.map_map]
  have hsame : (splitSkipEmpty 32 s).map (capitalisePart toUpper ∘ capitalisePart toUpper)
      = (splitSkipEmpty 32 s).map (capitalisePart toUpper) := by
    apply List.map_congr_left
    intro q hq
    exact (capitalisePart_props toUpper hidem hspace q (hparts q hq)).2
  rw [hsame]
  rfl

theorem asciiToUpper_idem (c : Nat) : asciiToUpper (asciiToUpper c) = asciiToUpper c := by
  unfold asciiToUpper
  split_ifs <;> omega

theorem asciiToUpper_space (c : Nat) (h : c ≠ 32) : asciiToUpper c ≠ 32 := by
  unfold asciiToUpper
  split_ifs <;> omega

/-- Witness for C30: the string `  hello  world ` with the upper-casing of the
letters `a` to `z`. -/
theorem capitalise_total_idempotent_witness :
    ((∀ c, asciiToUpper (asciiToUpper c) = asciiToUpper c)
      ∧ (∀ c, c ≠ 32 → asciiToUpper c ≠ 32))
    ∧ (∃ r, capitalise asciiToUpper (QStringLiteral "  hello  world ") = some r
        ∧ capitalise asciiToUpper r = some r)
    ∧ capitalise asciiToUpper (QStringLiteral "  hello  world ")
        = some (QStringLiteral "Hello World")
    ∧ capitalise asciiToUpper [] = some []
    ∧ capitalise asciiToUpper (QStringLiteral "   ") = some [] :=
  ⟨⟨asciiToUpper_idem, asciiToUpper_space⟩,
    capitalise_total_idempotent asciiToUpper asciiToUpper_idem asciiToUpper_space
      (QStringLiteral "  hello  world "),
    by decide, by decide, by decide⟩

/-! ## Claims on `InfoItem` -/

theorem reduceUInt64_foldl (values : List Nat) (acc : Nat) :
    values.foldl (fun a v => (a + v) % 2 ^ 64) (acc % 2 ^ 64)
      = (acc + values.sum) % 2 ^ 64 := by
  induction values generalizing acc with
  | nil => simp
  | cons v vs ih =>
    simp only [List.foldl_cons, List.sum_cons]
    rw [Nat.mod_add_mod, ih, Nat.add_assoc]

theorem reduceUInt64_eq (values : List Nat) : reduceUInt64 values = values.sum % 2 ^ 64 := by
  have h := reduceUInt64_foldl values 0
  simpa [reduceUInt64] using h

/-- One `value()` call on an `Average` item whose cache is zero or already the
quotient: it reports the quotient and keeps the values and that property. -/
theorem infoItem_value_average (φ : Type) (formatNum : Option (Nat → φ)) (item : InfoItem)
    (h : item.m_valueType = ValueType.Average)
    (hc : item.m_numValue = 0
      ∨ item.m_numValue = reduceUInt64 item.m_numValues / item.m_numValues.length) :
    (InfoItem.value formatNum item).2
        = InfoItem.render formatNum
            (reduceUInt64 item.m_numValues / item.m_numValues.length)
      ∧ (InfoItem.value formatNum item).1.m_valueType = ValueType.Average
      ∧ (InfoItem.value formatNum item).1.m_numValues = item.m_numValues
      ∧ ((InfoItem.value formatNum item).1.m_numValue = 0
        ∨ (InfoItem.value formatNum item).1.m_numValue
          = reduceUInt64 item.m_numValues / item.m_numValues.length) := by
  obtain ⟨vt, vals, val, nums, num⟩ := item
  simp only at h hc
  subst h
  cases nums with
  | nil =>
    have hz : num = 0 := by
      rcases hc with hc | hc
      · exact hc
      · simpa [reduceUInt64] using hc
    subst hz
    simp [InfoItem.value, reduceUInt64]
  | cons n ns =>
    by_cases hz : num = 0
    · subst hz
      simp [InfoItem.value]
    · have hq : num = reduceUInt64 (n :: ns) / (n :: ns).length := by
        rcases hc with hc | hc
        · exact absurd hc hz
        · exact hc
      have hq2 : num = reduceUInt64 (n :: ns) / (ns.length + 1) := by simpa using hq
      have hb : (num == 0 && !(n :: ns).isEmpty) = false := by simp [hz]
      simp only [InfoItem.value, hb, Bool.false_eq_true, if_false, List.length_cons]
      exact ⟨by rw [← hq2], trivial, trivial, Or.inr hq2⟩

/-- Along a sequence whose `addTrackValue` calls are all made on a zero cache, an
`Average` item collects the added values and its cache stays zero or equal to
the quotient of the values it holds. -/
theorem infoItem_run_average (φ : Type) (formatNum : Option (Nat → φ)) (item : InfoItem)
    (calls : List InfoCall) (h : item.m_valueType = ValueType.Average)
    (hc : item.m_numValue = 0
      ∨ item.m_numValue = reduceUInt64 item.m_numValues / item.m_numValues.length)
    (hp : addsOnZeroCache formatNum item calls = true) :
    (InfoItem.run formatNum item calls).1.m_valueType = ValueType.Average
      ∧ (InfoItem.run formatNum item calls).1.m_numValues
          = item.m_numValues ++ addedValues calls
      ∧ ((InfoItem.run formatNum item calls).1.m_numValue = 0
        ∨ (InfoItem.run formatNum item calls).1.m_numValue
          = reduceUInt64 (InfoItem.run formatNum item calls).1.m_numValues
              / (InfoItem.run formatNum item calls).1.m_numValues.length) := by
  induction calls generalizing item with
  | nil => exact ⟨h, by simp [InfoItem.run, addedValues], hc⟩
  | cons c cs ih =>
    cases c with
    | addTrackValue v =>
      simp only [addsOnZeroCache, Bool.and_eq_true, beq_iff_eq] at hp
      have hadd : item.addTrackValue v
          = { item with m_numValues := item.m_numValues ++ [v] } := by
        simp [InfoItem.addTrackValue, h]
      have h2 := ih (item.addTrackValue v) (by rw [hadd]; exact h)
        (by rw [hadd]; exact Or.inl hp.1) hp.2
      simp only [InfoItem.run]
      refine ⟨h2.1, ?_, h2.2.2⟩
      rw [h2.2.1, hadd]
      simp [addedValues]
    | value =>
      simp only [addsOnZeroCache] at hp
      have hv := infoItem_value_average φ formatNum item h hc
      have h2 := ih (InfoItem.value formatNum item).1 hv.2.1
        (by rw [hv.2.2.1]; exact hv.2.2.2) hp
      simp only [InfoItem.run]
      refine ⟨h2.1, ?_, h2.2.2⟩
      rw [h2.2.1, hv.2.2.1]
      simp [addedValues]

/-- C26 (as amended): for an `Average` item, in any sequence of `addTrackValue`
and `value()` calls in which every `addTrackValue` call is made while the cached
number is 0 (no `value()` call has reported a non-zero number before it) and
the sum of the values added is below `2^64`, `value()` at every point reports
the integer floor of the sum of the values added so far divided by their
number, and 0 when none was added (through the format function when one is
set). -/
theorem infoItem_average_reported (φ : Type) (formatNum : Option (Nat → φ))
    (calls : List InfoCall)
    (hp : addsOnZeroCache formatNum (InfoItem.fresh ValueType.Average) calls = true)
    (hsum : (addedValues calls).sum < 2 ^ 64) :
    (InfoItem.value formatNum
        (InfoItem.run formatNum (InfoItem.fresh ValueType.Average) calls).1).2
      = InfoItem.render formatNum
          ((addedValues calls).sum / (addedValues calls).length) := by
  have hr := infoItem_run_average φ formatNum (InfoItem.fresh ValueType.Average) calls rfl
    (Or.inl rfl) hp
  have hv := infoItem_value_average φ formatNum _ hr.1 hr.2.2
  have hm : (addedValues calls).sum % 2 ^ 64 = (addedValues calls).sum :=
    Nat.mod_eq_of_lt hsum
  rw [hv.1, hr.2.1]
  simp only [InfoItem.fresh, List.nil_append, reduceUInt64_eq, hm]

/-- Witness for C26: a read before any value, the values 0 and 0, a read that
reports 0, then the value 9; the next read reports 3. -/
theorem infoItem_average_reported_witness :
    (addsOnZeroCache (none : Option (Nat → Nat)) (InfoItem.fresh ValueType.Average)
        [InfoCall.value, InfoCall.addTrackValue 0, InfoCall.addTrackValue 0,
          InfoCall.value, InfoCall.addTrackValue 9] = true
      ∧ (addedValues
          [InfoCall.value, InfoCall.addTrackValue 0, InfoCall.addTrackValue 0,
            InfoCall.value, InfoCall.addTrackValue 9]).sum < 2 ^ 64)
    ∧ (InfoItem.value (none : Option (Nat → Nat))
        (InfoItem.run (none : Option (Nat → Nat)) (InfoItem.fresh ValueType.Average)
          [InfoCall.value, InfoCall.addTrackValue 0, InfoCall.addTrackValue 0,
            InfoCall.value, InfoCall.addTrackValue 9]).1).2
      = InfoItem.render none
          ((addedValues
              [InfoCall.value, InfoCall.addTrackValue 0, InfoCall.addTrackValue 0,
                InfoCall.value, InfoCall.addTrackValue 9]).sum
            / (addedValues
              [InfoCall.value, InfoCall.addTrackValue 0, InfoCall.addTrackValue 0,
                InfoCall.value, InfoCall.addTrackValue 9]).length)
    ∧ (InfoItem.run (none : Option (Nat → Nat)) (InfoItem.fresh ValueType.Average)
        [InfoCall.value, InfoCall.addTrackValue 0, InfoCall.addTrackValue 0,
          InfoCall.value, InfoCall.addTrackValue 9, InfoCall.value, InfoCall.value]).2
      = [InfoValue.number 0, InfoValue.number 0, InfoValue.number 3, InfoValue.number 3] :=
  ⟨by decide,
    infoItem_average_reported Nat none
      [InfoCall.value, InfoCall.addTrackValue 0, InfoCall.addTrackValue 0,
        InfoCall.value, InfoCall.addTrackValue 9] (by decide) (by decide),
    by decide⟩

/-- C26 as stated fails: after `addTrackValue(10)`, `value()`, `addTrackValue(20)`
the second `value()` still reports 10, not 15; and for the values `2^64 - 1` and
`1` added before any read, `value()` reports 0, not `2^63`. -/
theorem infoItem_average_counterexample :
    (InfoItem.run (none : Option (Nat → Nat)) (InfoItem.fresh ValueType.Average)
        [InfoCall.addTrackValue 10, InfoCall.value, InfoCall.addTrackValue 20,
          InfoCall.value]).2
      = [InfoValue.number 10, InfoValue.number 10]
    ∧ (10 + 20) / 2 = 15
    ∧ (InfoItem.run (none : Option (Nat → Nat)) (InfoItem.fresh ValueType.Average)
        [InfoCall.addTrackValue (2 ^ 64 - 1), InfoCall.addTrackValue 1, InfoCall.value]).2
      = [InfoValue.number 0]
    ∧ (2 ^ 64 - 1 + 1) / 2 = 2 ^ 63 := by
  decide

/-! ## Claims on `TagEditorItem` -/

theorem tagEditorItem_value_of_current (item : TagEditorItem)
    (h : item.m_value = [] ∨ item.m_value = item.joined) :
    item.value.2 = item.joined
      ∧ item.value.1.m_values = item.m_values
      ∧ item.value.1.m_value = item.joined := by
  obtain ⟨vals, val, n⟩ := item
  simp only at h
  cases val with
  | nil => simp [TagEditorItem.value, TagEditorItem.joined, QStringLiteral]
  | cons c cs =>
    have hj : TagEditorItem.joined ⟨vals, c :: cs, n⟩ = c :: cs := by
      rcases h with h | h
      · exact absurd h (by simp)
      · exact h.symm
    simp [TagEditorItem.value, hj]

theorem tagEditorItem_addTrackValue_cache (item : TagEditorItem) (value : QString) :
    (item.addTrackValue value).m_value = item.m_value := by
  unfold TagEditorItem.addTrackValue TagEditorItem.store
  split_ifs <;> rfl

theorem tagEditorItem_addTrackValues_cache (item : TagEditorItem) (values : List QString) :
    (item.addTrackValues values).m_value = item.m_value := by
  unfold TagEditorItem.addTrackValues
  simp only
  induction values generalizing item with
  | nil => rfl
  | cons v vs ih =>
    rw [List.foldl_cons, ih]
    unfold TagEditorItem.store
    split_ifs <;> rfl

theorem tagEditorItem_run_current (item : TagEditorItem) (calls : List TagCall)
    (h : item.m_value = [] ∨ item.m_value = item.joined)
    (hp : addsOnEmptyCache item calls = true) :
    (item.run calls).m_value = [] ∨ (item.run calls).m_value = (item.run calls).joined := by
  induction calls generalizing item with
  | nil => exact h
  | cons c cs ih =>
    simp only [addsOnEmptyCache, Bool.and_eq_true] at hp
    have hstep : (item.call c).m_value = [] ∨ (item.call c).m_value = (item.call c).joined := by
      cases c with
      | addTrackValue v =>
        left
        have hv : item.m_value = [] := by simpa using hp.1
        simp only [TagEditorItem.call]
        rw [tagEditorItem_addTrackValue_cache, hv]
      | addTrackValues vs =>
        left
        have hv : item.m_value = [] := by simpa using hp.1
        simp only [TagEditorItem.call]
        rw [tagEditorItem_addTrackValues_cache, hv]
      | setValue vs => exact Or.inl rfl
      | value =>
        right
        have hv := tagEditorItem_value_of_current item h
        simp only [TagEditorItem.call]
        rw [hv.2.2]
        simp [TagEditorItem.joined, hv.2.1]
    exact ih (item.call c) hstep hp.2

/-- C27 (as amended): in any sequence of `addTrackValue`, `setValue` and `value()`
calls on a new item in which every `addTrackValue` call is made while no
non-empty string is cached (no `value()` call has returned a non-empty string
since the construction or the last `setValue`), `value()` at every point equals
the non-empty entries of the current values list joined with `; ` in list
order, and leaves the values list as it is. -/
theorem tagEditorItem_value_joined (calls : List TagCall)
    (hp : addsOnEmptyCache TagEditorItem.fresh calls = true) :
    (TagEditorItem.fresh.run calls).value.2
        = join (QStringLiteral "; ")
            ((TagEditorItem.fresh.run calls).m_values.filter (fun v => v != []))
      ∧ (TagEditorItem.fresh.run calls).value.1.m_values
        = (TagEditorItem.fresh.run calls).m_values := by
  have h := tagEditorItem_run_current TagEditorItem.fresh calls (Or.inl rfl) hp
  have hv := tagEditorItem_value_of_current _ h
  exact ⟨hv.1, hv.2.1⟩

/-- Witness for C27: the values `b`, the empty string and `a` are added, the
value is read, and `setValue` then replaces the list. -/
theorem tagEditorItem_value_joined_witness :
    addsOnEmptyCache TagEditorItem.fresh
        [TagCall.addTrackValue (QStringLiteral "b"), TagCall.addTrackValue [],
          TagCall.addTrackValue (QStringLiteral "a"), TagCall.value,
          TagCall.setValue [QStringLiteral "z", QStringLiteral "y"]] = true
    ∧ ((TagEditorItem.fresh.run
          [TagCall.addTrackValue (QStringLiteral "b"), TagCall.addTrackValue [],
            TagCall.addTrackValue (QStringLiteral "a"), TagCall.value,
            TagCall.setValue [QStringLiteral "z", QStringLiteral "y"]]).value.2
        = join (QStringLiteral "; ")
            ((TagEditorItem.fresh.run
              [TagCall.addTrackValue (QStringLiteral "b"), TagCall.addTrackValue [],
                TagCall.addTrackValue (QStringLiteral "a"), TagCall.value,
                TagCall.setValue [QStringLiteral "z", QStringLiteral "y"]]).m_values.filter
              (fun v => v != []))
      ∧ (TagEditorItem.fresh.run
          [TagCall.addTrackValue (QStringLiteral "b"), TagCall.addTrackValue [],
            TagCall.addTrackValue (QStringLiteral "a"), TagCall.value,
            TagCall.setValue [QStringLiteral "z", QStringLiteral "y"]]).value.1.m_values
        = (TagEditorItem.fresh.run
          [TagCall.addTrackValue (QStringLiteral "b"), TagCall.addTrackValue [],
            TagCall.addTrackValue (QStringLiteral "a"), TagCall.value,
            TagCall.setValue [QStringLiteral "z", QStringLiteral "y"]]).m_values)
    ∧ (TagEditorItem.fresh.run
          [TagCall.addTrackValue (QStringLiteral "b"), TagCall.addTrackValue [],
            TagCall.addTrackValue (QStringLiteral "a"), TagCall.value]).m_value
        = QStringLiteral "a; b"
    ∧ (TagEditorItem.fresh.run
          [TagCall.addTrackValue (QStringLiteral "b"), TagCall.addTrackValue [],
            TagCall.addTrackValue (QStringLiteral "a"), TagCall.value,
            TagCall.setValue [QStringLiteral "z", QStringLiteral "y"]]).value.2
        = QStringLiteral "z; y" :=
  ⟨by decide, tagEditorItem_value_joined _ (by decide), by decide, by decide⟩

/-- C27 as stated fails: after `addTrackValue("a")`, `value()`,
`addTrackValue("b")` the values list is `a`, `b` but `value()` still returns
`a`, not `a; b`. -/
theorem tagEditorItem_value_counterexample :
    (TagEditorItem.fresh.run
        [TagCall.addTrackValue (QStringLiteral "a"), TagCall.value,
          TagCall.addTrackValue (QStringLiteral "b")]).m_values
      = [QStringLiteral "a", QStringLiteral "b"]
    ∧ (TagEditorItem.fresh.run
        [TagCall.addTrackValue (QStringLiteral "a"), TagCall.value,
          TagCall.addTrackValue (QStringLiteral "b")]).value.2 = QStringLiteral "a"
    ∧ (TagEditorItem.fresh.run
        [TagCall.addTrackValue (QStringLiteral "a"), TagCall.value,
          TagCall.addTrackValue (QStringLiteral "b")]).value.2
      ≠ join (QStringLiteral "; ")
          ((TagEditorItem.fresh.run
            [TagCall.addTrackValue (QStringLiteral "a"), TagCall.value,
              TagCall.addTrackValue (QStringLiteral "b")]).m_values.filter
            (fun v => v != [])) := by
  decide

theorem tagEditorItem_addTrackValue_of_mem (item : TagEditorItem) (v : QString)
    (h : v ∈ item.m_values) : item.addTrackValue v = item := by
  simp [TagEditorItem.addTrackValue, h]

theorem tagEditorItem_addTrackValue_of_not_mem (item : TagEditorItem) (v : QString)
    (h : v ∉ item.m_values) :
    (item.addTrackValue v).m_trackCount = item.m_trackCount + 1 := by
  have hc : item.m_values.contains v = false := by simpa using h
  unfold TagEditorItem.addTrackValue TagEditorItem.store
  simp only [hc, Bool.false_eq_true, if_false]
  split_ifs <;> rfl

theorem tagEditorItem_addAll_count (item : TagEditorItem) (values : List QString) :
    (item.addAll values).m_trackCount = item.m_trackCount + countNew item values := by
  induction values generalizing item with
  | nil => rfl
  | cons v vs ih =>
    have hstep : (item.addAll (v :: vs)) = (item.addTrackValue v).addAll vs := rfl
    rw [hstep, ih, countNew]
    by_cases hv : v ∈ item.m_values
    · rw [tagEditorItem_addTrackValue_of_mem item v hv]
      simp [hv]
    · rw [tagEditorItem_addTrackValue_of_not_mem item v hv]
      simp only [hv, if_false]
      omega

theorem tagEditorItem_addAll_single (item : TagEditorItem) (v : QString)
    (values : List QString) (hv : item.m_values = [v]) (hc : item.m_trackCount = 1) :
    1 < (item.addAll values).m_trackCount ↔ ∃ b ∈ values, b ≠ v := by
  induction values generalizing item with
  | nil => simp [TagEditorItem.addAll, hc]
  | cons b bs ih =>
    have hstep : (item.addAll (b :: bs)) = (item.addTrackValue b).addAll bs := rfl
    rw [hstep]
    by_cases hb : b = v
    · have hmem : b ∈ item.m_values := by rw [hv, hb]; exact List.mem_singleton.2 rfl
      rw [tagEditorItem_addTrackValue_of_mem item b hmem, ih item hv hc]
      constructor
      · rintro ⟨x, hx, hne⟩
        exact ⟨x, List.mem_cons_of_mem _ hx, hne⟩
      · rintro ⟨x, hx, hne⟩
        rcases List.mem_cons.1 hx with h | h
        · exact absurd (h.trans hb) hne
        · exact ⟨x, h, hne⟩
    · have hnot : b ∉ item.m_values := by
        rw [hv]
        exact fun h => hb (List.mem_singleton.1 h)
      have h1 := tagEditorItem_addTrackValue_of_not_mem item b hnot
      have h2 := tagEditorItem_addAll_count (item.addTrackValue b) bs
      constructor
      · intro _
        exact ⟨b, List.mem_cons_self _ _, hb⟩
      · intro _
        omega

/-- C28: for a new item filled through the single-string `addTrackValue` only,
`trackCount()` is the number of calls whose value was not in the values list when
the call was made, and `trackCount() > 1` holds exactly when two different
values were added, whatever the character limit let the list store. -/
theorem tagEditorItem_trackCount (values : List QString) :
    (TagEditorItem.fresh.addAll values).trackCount = countNew TagEditorItem.fresh values
      ∧ (1 < (TagEditorItem.fresh.addAll values).trackCount
          ↔ ∃ a ∈ values, ∃ b ∈ values, a ≠ b) := by
  refine ⟨?_, ?_⟩
  · have h := tagEditorItem_addAll_count TagEditorItem.fresh values
    simpa [TagEditorItem.trackCount, TagEditorItem.fresh] using h
  · cases values with
    | nil => simp [TagEditorItem.addAll, TagEditorItem.trackCount, TagEditorItem.fresh]
    | cons v vs =>
      have hfirst : TagEditorItem.fresh.addTrackValue v
          = { m_values := [v], m_value := [], m_trackCount := 1 } := by
        simp [TagEditorItem.addTrackValue, TagEditorItem.store, TagEditorItem.fresh,
          sortStrings]
      have hstep : TagEditorItem.fresh.addAll (v :: vs)
          = (TagEditorItem.fresh.addTrackValue v).addAll vs := rfl
      unfold TagEditorItem.trackCount
      rw [hstep, hfirst, tagEditorItem_addAll_single _ v vs rfl rfl]
      constructor
      · rintro ⟨b, hb, hne⟩
        exact ⟨b, List.mem_cons_of_mem _ hb, v, List.mem_cons_self _ _, hne⟩
      · rintro ⟨a, ha, b, hb, hne⟩
        rcases List.mem_cons.1 ha with h1 | h1
        · rcases List.mem_cons.1 hb with h2 | h2
          · exact absurd (h1.trans h2.symm) hne
          · exact ⟨b, h2, fun e => hne (h1.trans e.symm)⟩
        · by_cases hav : a = v
          · rcases List.mem_cons.1 hb with h2 | h2
            · exact absurd (hav.trans h2.symm) hne
            · exact ⟨b, h2, fun e => hne (hav.trans e.symm)⟩
          · exact ⟨a, h1, hav⟩

/-! ## Claims on `LibraryTreeItem` -/

/-- C29 at an item of level -1: whatever the collation, the ordering predicate of
`sortChildren` holds between an item of level -1 and itself, and holds in both
directions between two items of level -1; it is neither irreflexive nor
asymmetric there. -/
theorem sortChildrenLess_at_level_minus_one (compare : QString → QString → Int)
    (title other : QString) :
    sortChildrenLess compare { m_level := -1, m_title := title }
        { m_level := -1, m_title := title } = true
      ∧ sortChildrenLess compare { m_level := -1, m_title := title }
          { m_level := -1, m_title := other } = true
      ∧ sortChildrenLess compare { m_level := -1, m_title := other }
          { m_level := -1, m_title := title } = true := by
  simp [sortChildrenLess]

end Fooyin
